import Mathlib

/-!
# duplicate-finder: a verification development

Shallow embedding of the three Go programs of the repository

* `finder0/finder0.go` : sequential walk, hashes in the visit callback;
* `finder1/finder1.go` : fixed pool of workers fed by a paths channel;
* `finder3/finder3.go` : one goroutine per directory and per file, a
  `sync.WaitGroup` for termination detection and a buffered channel
  `limits` used as a counting semaphore.

The file system is a finite tree that does not change during a run, the
fingerprint primitive (`md5`) and the file reader are parameters.
-/

set_option autoImplicit false

/-! ## Shared data model (identical declarations in the three programs) -/

/-- `type pair struct { hash string; path string }`. -/
structure pair where
  hash : String
  path : String
deriving DecidableEq, Repr

/-- `type pathList []string`. -/
abbrev pathList := List String

/-- `type result map[string]pathList`: the Go map is embedded as an association
list; `result.index` and `result.assign` keep at most one binding per key. -/
abbrev result := List (String × pathList)

/-- The map read `hashes[k]`: the zero value (a nil slice) when `k` is absent. -/
def result.index : result → String → pathList
  | [], _ => []
  | (k', v) :: rest, k => if k' = k then v else result.index rest k

/-- The map write `hashes[k] = v`: overwrites the binding of `k` or adds one. -/
def result.assign : result → String → pathList → result
  | [], k, v => [(k, v)]
  | (k', v') :: rest, k, v =>
    if k' = k then (k', v) :: rest else (k', v') :: result.assign rest k v

/-- The keys of the map. -/
def result.keys (m : result) : List String := m.map Prod.fst

/-- The statement `hashes[p.hash] = append(hashes[p.hash], p.path)`, which is the
body of the loop of `collectHashes` (finder1, finder3) and of the visit
callback of finder0. -/
def record (hashes : result) (p : pair) : result :=
  result.assign hashes p.hash (result.index hashes p.hash ++ [p.path])

/-- The function `collectHashes`: `hashes := make(result)`, then one `record`
for every pair received from the channel `pairs` until it is closed; the map
is then sent on `results`.  The argument is the sequence of pairs in the order
in which they are received. -/
def collectHashes (pairs : List pair) : result :=
  pairs.foldl record []

/-- Total number of paths stored in a map. -/
def result.total (m : result) : Nat := (m.map (fun e => e.2.length)).sum

/-! ## The report loop of `main` -/

/-- How a Go process can die. -/
inductive Crash where
  /-- the call `log.Fatal`: the process exits with status 1 -/
  | fatal
  /-- the run-time panic (nil dereference, slice bounds out of range, ...) -/
  | panic
deriving DecidableEq, Repr

/-- One group as printed by `main`: the header line
`fmt.Println(hash[len(hash)-7:], len(paths))` and one line per path. -/
structure Printed where
  tag : String
  n : Nat
  paths : pathList
deriving DecidableEq, Repr

/-- The loop `for hash, paths := range hashes` of `main`, over the entries in
the order `iter` in which `range` yields them (Go leaves that order
unspecified).  A group is printed when `len(paths) > 1`; the slice expression
`hash[len(hash)-7:]` panics when the key is shorter than 7 bytes (fingerprints
are hexadecimal digits, one byte per character).  Returns what was printed and
whether the loop panicked. -/
def mainLoop : List (String × pathList) → List Printed × Option Crash
  | [] => ([], none)
  | (hash, paths) :: rest =>
    if paths.length > 1 then
      if hash.length < 7 then ([], some Crash.panic)
      else
        let r := mainLoop rest
        (⟨String.mk (hash.data.drop (hash.length - 7)), paths.length, paths⟩ :: r.1, r.2)
    else mainLoop rest

/-- The entries selected by the guard `if len(paths) > 1` of the loop of `main`:
the reported duplicate groups. -/
def report (iter : List (String × pathList)) : List (String × pathList) :=
  iter.filter (fun e => decide (e.2.length > 1))

/-! ## File system and `filepath.Walk` -/

/-- The errors that `os.Lstat` and the directory read can return. -/
inductive FsError where
  /-- an error for which `errors.Is(err, os.ErrNotExist)` holds -/
  | notExist
  /-- permission denied (`os.ErrPermission`) -/
  | permission
  /-- any other failure of the file system -/
  | other (msg : String)
deriving DecidableEq, Repr

/-- Values of the Go type `error` that flow through the walk: the sentinel
`filepath.SkipDir`, which only a walk function returns, or an error of the file
system. -/
inductive GoError where
  | skipDir
  | fs (e : FsError)
deriving DecidableEq, Repr

/-- The call `errors.Is(err, os.ErrNotExist)`. -/
def GoError.isNotExist : GoError → Bool
  | .fs .notExist => true
  | _ => false

mutual
/-- What `os.Lstat` finds at a path: the object behind an `os.FileInfo`. -/
inductive FsNode where
  /-- a non-directory; `regular` is `Mode().IsRegular()`, `size` is `Size()` -/
  | file (regular : Bool) (size : Nat)
  /-- a directory whose names can be read -/
  | dir (size : Nat) (entries : FsList)
  /-- a directory for which reading the names fails with `err` -/
  | unreadable (size : Nat) (err : FsError)
/-- The names of a directory, in the (lexical) order of the walk. -/
inductive FsList where
  | nil
  /-- a name for which `os.Lstat` succeeds -/
  | entry (name : String) (node : FsNode) (rest : FsList)
  /-- a name for which `os.Lstat` fails with `err` (for example the entry was
  removed after the directory was listed) -/
  | vanished (name : String) (err : FsError) (rest : FsList)
end

/-- The test `f.Mode().IsDir()`. -/
def FsNode.isDir : FsNode → Bool
  | .file _ _ => false
  | .dir _ _ => true
  | .unreadable _ _ => true

/-- The test `f.Mode().IsRegular()`. -/
def FsNode.isRegular : FsNode → Bool
  | .file r _ => r
  | .dir _ _ => false
  | .unreadable _ _ => false

/-- The call `f.Size()`. -/
def FsNode.size : FsNode → Nat
  | .file _ s => s
  | .dir s _ => s
  | .unreadable s _ => s

/-- The call `filepath.Join(path, name)` for a clean `path` and a name returned
by the directory read. -/
def Join (path name : String) : String := path ++ "/" ++ name

/-- What a call of the walk function, or of the walk, comes to. -/
inductive Res where
  /-- it returns this `error` (`none` is `nil`) -/
  | ret (err : Option GoError)
  /-- the process dies inside it -/
  | crash (c : Crash)
deriving DecidableEq, Repr

/-- The type `filepath.WalkFunc`, with the state `σ` that the closure mutates
passed explicitly; the `os.FileInfo` argument is `none` for a nil interface. -/
abbrev WalkFunc (σ : Type) := String → Option FsNode → Option GoError → σ → σ × Res

mutual
/-- The unexported `walk` of the Go library `path/filepath` (the library that
the three programs call, transcribed from its source): a non-directory is
handed to the walk function; for a directory the names are read first and the
walk function gets the directory with the error of that read, and when either
that error or the returned error is not nil the returned one is the result;
else the names are walked in order. -/
def walk {σ : Type} (fn : WalkFunc σ) (path : String) : FsNode → σ → σ × Res
  | .file r sz, s => fn path (some (.file r sz)) none s
  | .dir sz es, s =>
    match fn path (some (.dir sz es)) none s with
    | (s1, .ret none) => walkNames fn path es s1
    | r => r
  | .unreadable sz e, s => fn path (some (.unreadable sz e)) (some (.fs e)) s
/-- The loop `for _, name := range names` of `walk`: a name for which `os.Lstat`
fails is handed to the walk function with a nil file info and that error, and
the loop goes on when it returns nil or `SkipDir`; else the object is walked,
and the loop goes on when that returns nil, or `SkipDir` for a directory. -/
def walkNames {σ : Type} (fn : WalkFunc σ) (path : String) : FsList → σ → σ × Res
  | .nil, s => (s, .ret none)
  | .vanished name e rest, s =>
    match fn (Join path name) none (some (.fs e)) s with
    | (s1, .ret none) => walkNames fn path rest s1
    | (s1, .ret (some .skipDir)) => walkNames fn path rest s1
    | r => r
  | .entry name node rest, s =>
    match walk fn (Join path name) node s with
    | (s1, .ret none) => walkNames fn path rest s1
    | (s1, .ret (some err)) =>
      if !node.isDir || err != .skipDir then (s1, .ret (some err))
      else walkNames fn path rest s1
    | r => r
end

/-- The function `filepath.Walk(root, fn)`; `lst` is the outcome of
`os.Lstat(root)`.  A `SkipDir` that reaches the top is turned into `nil`.  (The
sentinel `SkipAll` of later library versions is left out: no walk function of
the repository returns it.) -/
def Walk {σ : Type} (fn : WalkFunc σ) (root : String) (lst : Except FsError FsNode)
    (s : σ) : σ × Res :=
  let r := match lst with
    | .error e => fn root none (some (.fs e)) s
    | .ok node => walk fn root node s
  match r with
  | (s1, .ret (some .skipDir)) => (s1, .ret none)
  | r => r

mutual
/-- The objects of the tree below `path` with their paths, in walk order: a
node itself, then, for a readable directory, the objects below each name. -/
def FsNode.entries (path : String) : FsNode → List (String × FsNode)
  | .file r sz => [(path, .file r sz)]
  | .dir sz es => (path, .dir sz es) :: FsList.entries path es
  | .unreadable sz e => [(path, .unreadable sz e)]
/-- The objects below the names of a directory whose path is `path`. -/
def FsList.entries (path : String) : FsList → List (String × FsNode)
  | .nil => []
  | .entry name node rest => FsNode.entries (Join path name) node ++ FsList.entries path rest
  | .vanished _ _ rest => FsList.entries path rest
end

/-- The header and path lines that `main` prints for one map entry. -/
def Printed.ofEntry (e : String × pathList) : Printed :=
  ⟨String.mk (e.1.data.drop (e.1.length - 7)), e.2.length, e.2⟩

/-- The bytes of a file. -/
abbrev Bytes := List Nat

/-- The function `hashFile`: `log.Fatal` when `os.Open` or `io.Copy` fails
(`readFile path = none`), else the pair of the hexadecimal digest of the whole
content and the path.  `md5` stands for `fmt.Sprintf("%x", md5.Sum(content))`. -/
def hashFile (md5 : Bytes → String) (readFile : String → Option Bytes) (path : String) :
    Except Crash pair :=
  match readFile path with
  | none => .error Crash.fatal
  | some content => .ok { hash := md5 content, path := path }

/-- The guard `err != nil && !errors.Is(err, os.ErrNotExist)` that opens the
three visit closures. -/
def fatalWalkError : Option GoError → Bool
  | none => false
  | some e => !e.isNotExist

namespace finder0

/-- The closure `visit` of `searchTree` (finder0.go, lines 42-52); the state is
the map `hashes` that the closure captures. -/
def visit (md5 : Bytes → String) (readFile : String → Option Bytes) : WalkFunc result :=
  fun path f err hashes =>
    if fatalWalkError err then (hashes, .ret err)
    else match f with
      | none => (hashes, .crash Crash.panic)
      | some f =>
        if f.isRegular && decide (f.size > 0) then
          match hashFile md5 readFile path with
          | .error c => (hashes, .crash c)
          | .ok h => (record hashes h, .ret none)
        else (hashes, .ret none)

/-- The function `searchTree(dir)` of finder0: the map and the error returned
by `filepath.Walk(dir, visit)`. -/
def searchTree (md5 : Bytes → String) (readFile : String → Option Bytes) (dir : String)
    (lst : Except FsError FsNode) : result × Res :=
  Walk (visit md5 readFile) dir lst []

end finder0

mutual
/-- A tree every directory of which can be read and every name of which can be
inspected. -/
def FsNode.clean : FsNode → Bool
  | .file _ _ => true
  | .dir _ es => FsList.clean es
  | .unreadable _ _ => false
/-- Names that can all be inspected and lead to clean trees. -/
def FsList.clean : FsList → Bool
  | .nil => true
  | .entry _ node rest => FsNode.clean node && FsList.clean rest
  | .vanished _ _ _ => false
end

/-- The guard `f.Mode().IsRegular() && f.Size() > 0` on an object of the tree. -/
def eligible (e : String × FsNode) : Bool := e.2.isRegular && decide (e.2.size > 0)

/-- The pairs that hashing the eligible objects of a sequence, in order, gives
(an object that cannot be read gives no pair). -/
def hashStream (md5 : Bytes → String) (readFile : String → Option Bytes)
    (es : List (String × FsNode)) : List pair :=
  es.filterMap (fun e =>
    if eligible e then (readFile e.1).map (fun c => { hash := md5 c, path := e.1 }) else none)

namespace finder1

/-- The closure `visit` of `searchTree` (finder1.go, lines 59-68); the state is
the sequence of paths sent on the channel `paths`. -/
def visit : WalkFunc (List String) :=
  fun path f err sent =>
    if fatalWalkError err then (sent, .ret err)
    else match f with
      | none => (sent, .crash Crash.panic)
      | some f =>
        if f.isRegular && decide (f.size > 0) then (sent ++ [path], .ret none)
        else (sent, .ret none)

end finder1

namespace finder3

/-- A goroutine body started by a `go` statement of finder3. -/
inductive Job where
  /-- the call `searchTree(path, pairs, wg, limits)`; `lst` is what `os.Lstat(path)`
  finds when the walker starts (the file system does not change during a run) -/
  | searchTree (path : String) (lst : Except FsError FsNode)
  /-- the call `processFile(path, pairs, wg, limits)` -/
  | processFile (path : String)

/-- The effects of the visit closure on the task group, in program order. -/
inductive Op where
  /-- the call `wg.Add(delta)` -/
  | add (delta : Nat)
  /-- the statement `go job` -/
  | go (job : Job)

/-- The closure `visit` of `searchTree(dir, ...)` (finder3.go, lines 76-95); the
state is the sequence of task-group operations it has executed. -/
def visit (dir : String) : WalkFunc (List Op) :=
  fun path f err ops =>
    if fatalWalkError err then (ops, .ret err)
    else match f with
      | none => (ops, .crash Crash.panic)
      | some f =>
        if f.isDir && path != dir then
          (ops ++ [Op.add 1, Op.go (Job.searchTree path (.ok f))], .ret (some GoError.skipDir))
        else if f.isRegular && decide (f.size > 0) then
          (ops ++ [Op.add 1, Op.go (Job.processFile path)], .ret none)
        else (ops, .ret none)

end finder3

/-! ## finder3: the task group as a transition system -/

namespace finder3

/-- The call `filepath.Walk(dir, visit)` made by `searchTree(dir, ...)`: the
task-group operations that the visit closure executes, in program order, and
what the walk comes to. -/
def walkOps (dir : String) (lst : Except FsError FsNode) : List Op × Res :=
  Walk (visit dir) dir lst []

/-- Where a goroutine started for a `Job` stands. -/
inductive Pc where
  /-- created; next statement `limits <- true` (after `defer wg.Done()`) -/
  | start
  /-- `searchTree` inside `filepath.Walk`, holding a slot: the operations that the
  visit closure has still to execute, and what the walk will come to -/
  | walking (todo : List Op) (r : Res)
  /-- `processFile` holding a slot; next statement `pairs <- hashFile(path)` -/
  | hashing
  /-- body over (returned, or panicking); next the deferred `<-limits` -/
  | unwinding (r : Res)
  /-- slot given back; next the deferred `wg.Done()` -/
  | released (r : Res)
  /-- goroutine over -/
  | finished (r : Res)

/-- A goroutine of the task group; `acquires` and `releases` count its sends to
and receives from `limits` (instrumentation, not read by any step). -/
structure Task where
  job : Job
  pc : Pc
  acquires : Nat
  releases : Nat

/-- Where `run` stands, for the statements that follow `wg.Add(1)`. -/
inductive MainPc where
  /-- inside the call `searchTree(dir, ...)`, which is task 0 -/
  | inSearchTree
  /-- at `wg.Wait()` -/
  | waiting
  /-- at `close(pairs)` -/
  | closing
  /-- at `return <-results` -/
  | receiving
  /-- `run` has returned -/
  | returned
deriving DecidableEq, Repr

/-- The shared state of a run of finder3. -/
structure State where
  /-- how the process died, if it did -/
  dead : Option Crash
  /-- the counter of the `sync.WaitGroup` -/
  count : Nat
  /-- the number of values buffered in the channel `limits` -/
  limits : Nat
  /-- the goroutines created so far; task 0 is the root walker, which `run`
  calls in the main goroutine -/
  tasks : List Task
  /-- the map of the collector -/
  hashes : result
  /-- whether `pairs` is closed -/
  closed : Bool
  mainPc : MainPc
  /-- the value returned by `run` -/
  returned : Option result

/-- What the scheduler picks: a goroutine of the task group, or the
continuation of `run`. -/
inductive Who where
  | task (i : Nat)
  | main
deriving DecidableEq, Repr

/-- The parameters of a run: the capacity of `limits`, the fingerprint primitive
and the file reader. -/
structure Env where
  workers : Nat
  md5 : Bytes → String
  readFile : String → Option Bytes

/-- The assignment `workers := 2 * runtime.GOMAXPROCS(0)` of `run`. -/
def workersOf (gomaxprocs : Nat) : Nat := 2 * gomaxprocs

/-- The state of `run(dir)` after `go collectHashes(pairs, results)` and
`wg.Add(1)`: the count is 1 and the root walker is about to start. -/
def init (dir : String) (lst : Except FsError FsNode) : State :=
  { dead := none, count := 1, limits := 0,
    tasks := [{ job := .searchTree dir lst, pc := .start, acquires := 0, releases := 0 }],
    hashes := [], closed := false, mainPc := .inSearchTree, returned := none }

/-- The body that a goroutine enters once it holds a slot. -/
def body : Job → Pc
  | .searchTree path lst => .walking (walkOps path lst).1 (walkOps path lst).2
  | .processFile _ => .hashing

/-- One step of task `i`; `none` when the task does not exist, is over or is
blocked. -/
def stepTask (env : Env) (s : State) (i : Nat) : Option State :=
  match s.tasks.get? i with
  | none => none
  | some t =>
    match t.pc with
    | .start =>
      -- limits <- true : blocks while the buffer is full
      if s.limits < env.workers then
        some { s with
          limits := s.limits + 1,
          tasks := s.tasks.set i { t with pc := body t.job, acquires := t.acquires + 1 } }
      else none
    | .walking (.add delta :: rest) r =>
      -- wg.Add(1)
      some { s with
        count := s.count + delta,
        tasks := s.tasks.set i { t with pc := .walking rest r } }
    | .walking (.go job :: rest) r =>
      -- go searchTree(...) / go processFile(...)
      some { s with
        tasks := s.tasks.set i { t with pc := .walking rest r } ++
          [{ job := job, pc := .start, acquires := 0, releases := 0 }] }
    | .walking [] r =>
      -- filepath.Walk returns (or the panic of the visit closure unwinds)
      some { s with tasks := s.tasks.set i { t with pc := .unwinding r } }
    | .hashing =>
      match t.job with
      | .searchTree _ _ => none
      | .processFile path =>
        -- pairs <- hashFile(path) : a send on a closed channel panics
        if s.closed then some { s with dead := some Crash.panic }
        else match hashFile env.md5 env.readFile path with
          | .error c => some { s with dead := some c }
          | .ok p =>
            some { s with
              hashes := record s.hashes p,
              tasks := s.tasks.set i { t with pc := .unwinding (.ret none) } }
    | .unwinding r =>
      -- <-limits : blocks while the buffer is empty
      if s.limits = 0 then none
      else
        some { s with
          limits := s.limits - 1,
          tasks := s.tasks.set i { t with pc := .released r, releases := t.releases + 1 } }
    | .released r =>
      -- wg.Done() : a negative counter panics
      if s.count = 0 then some { s with dead := some Crash.panic }
      else
        some { s with
          count := s.count - 1,
          tasks := s.tasks.set i { t with pc := .finished r },
          dead := match r with
            | .crash c => some c
            | .ret _ => none }
    | .finished _ => none

/-- One step of the continuation of `run` after `wg.Add(1)`. -/
def stepMain (s : State) : Option State :=
  match s.mainPc with
  | .inSearchTree =>
    -- if err := searchTree(...); err != nil { log.Fatal(err) }
    match s.tasks.get? 0 with
    | some t =>
      match t.pc with
      | .finished (.ret none) => some { s with mainPc := .waiting }
      | .finished (.ret (some _)) => some { s with dead := some Crash.fatal }
      | _ => none
    | none => none
  | .waiting =>
    -- wg.Wait() : blocks until the counter is zero
    if s.count = 0 then some { s with mainPc := .closing } else none
  | .closing =>
    -- close(pairs)
    some { s with closed := true, mainPc := .receiving }
  | .receiving =>
    -- return <-results : the collector leaves its loop and sends the map
    some { s with returned := some s.hashes, mainPc := .returned }
  | .returned => none

/-- One step of the process; a dead process takes no step. -/
def step (env : Env) (s : State) (w : Who) : Option State :=
  match s.dead with
  | some _ => none
  | none =>
    match w with
    | .task i => stepTask env s i
    | .main => stepMain s

/-- The state reached by a schedule, `none` when the schedule asks for a step that is
not enabled. -/
def exec (env : Env) : State → List Who → Option State
  | s, [] => some s
  | s, w :: ws =>
    match step env s w with
    | none => none
    | some s' => exec env s' ws

/-- Whether the goroutine is not over: 1 or 0. -/
def live (t : Task) : Nat :=
  match t.pc with
  | .finished _ => 0
  | _ => 1

/-- Whether the walker has executed `wg.Add(1)` for a child and not yet the `go`
statement that follows: 1 or 0. -/
def owed (t : Task) : Nat :=
  match t.pc with
  | .walking (.go _ :: _) _ => 1
  | _ => 0

/-- Whether the goroutine is between `limits <- true` and `<-limits`: 1 or 0. -/
def holding (t : Task) : Nat :=
  match t.pc with
  | .walking _ _ => 1
  | .hashing => 1
  | .unwinding _ => 1
  | _ => 0

/-- The number of registered tasks that are not over: the goroutines that are
not finished, and the tasks registered by a `wg.Add(1)` whose `go` statement
has not been executed yet. -/
def outstanding (s : State) : Nat :=
  (s.tasks.map live).sum + (s.tasks.map owed).sum

/-- The number of goroutines between `limits <- true` and `<-limits`. -/
def inFlight (s : State) : Nat := (s.tasks.map holding).sum

/-- Whether the goroutine is over. -/
def Task.isFinished (t : Task) : Bool :=
  match t.pc with
  | .finished _ => true
  | _ => false

/-- A sequence of operations made of `wg.Add(1)`, `go ...` couples. -/
def paired : List Op → Bool
  | [] => true
  | .add delta :: .go _ :: rest => decide (delta = 1) && paired rest
  | _ => false

/-- What is left of a `paired` sequence after some steps: a `paired` sequence,
possibly after the `go` of a couple whose `wg.Add(1)` has been executed. -/
def pairedTail : List Op → Bool
  | .go _ :: rest => paired rest
  | ops => paired ops

/-- What holds of one goroutine in every reachable state: the operations left
to a walker are well formed, and the instrumentation agrees with the program
counter. -/
def Task.ok (t : Task) : Prop :=
  match t.pc with
  | .start => t.acquires = 0 ∧ t.releases = 0
  | .walking todo _ => pairedTail todo = true ∧ t.acquires = 1 ∧ t.releases = 0
  | .hashing => t.acquires = 1 ∧ t.releases = 0
  | .unwinding _ => t.acquires = 1 ∧ t.releases = 0
  | .released _ => t.acquires = 1 ∧ t.releases = 1
  | .finished _ => t.acquires = 1 ∧ t.releases = 1

/-- The invariant of the transition system. -/
structure Inv (env : Env) (s : State) : Prop where
  count_eq : s.count = outstanding s
  limits_eq : s.limits = inFlight s
  limits_le : s.limits ≤ env.workers
  tasks_ok : ∀ t ∈ s.tasks, t.ok
  main_past : s.mainPc ≠ .inSearchTree → s.mainPc ≠ .waiting → s.count = 0
  closed_main : s.closed = true → s.mainPc = .receiving ∨ s.mainPc = .returned

/-- The objects of the tree that a run on `dir` can meet; none when
`os.Lstat(dir)` fails. -/
def rootEntries (dir : String) (lst : Except FsError FsNode) : List (String × FsNode) :=
  match lst with
  | .ok root => root.entries dir
  | .error _ => []

/-- A job that stems from the objects `E`: a walker of an object of `E`, or a
hasher of an eligible object of `E`. -/
def Job.within (E : List (String × FsNode)) : Job → Prop
  | .searchTree path lst => ∀ node, lst = .ok node → (path, node) ∈ E
  | .processFile q => ∃ n, (q, n) ∈ E ∧ eligible (q, n) = true

/-- A goroutine whose job, and whose jobs still to launch, stem from `E`. -/
def Task.within (E : List (String × FsNode)) (t : Task) : Prop :=
  t.job.within E ∧
  match t.pc with
  | .walking todo _ => ∀ j, Op.go j ∈ todo → j.within E
  | _ => True

/-- A map all of whose paths are paths of eligible objects of `E`. -/
def indexWithin (E : List (String × FsNode)) (m : result) : Prop :=
  ∀ e ∈ m, ∀ q ∈ e.2, ∃ n, (q, n) ∈ E ∧ eligible (q, n) = true

/-- The provenance invariant of the transition system: all jobs and all paths
of the collector's map, and of the map that `run` returns, stem from `E`. -/
structure Src (E : List (String × FsNode)) (s : State) : Prop where
  tasks_within : ∀ t ∈ s.tasks, t.within E
  hashes_within : indexWithin E s.hashes
  returned_within : ∀ idx, s.returned = some idx → indexWithin E idx

/-- A job, or a sequence of operations still to execute, that takes care of the
object `e`: it launches the hasher of `e`, or a walker of a tree without errors
that holds `e`. -/
def covered (e : String × FsNode) (ops : List Op) : Prop :=
  Op.go (.processFile e.1) ∈ ops ∨
  ∃ q m, Op.go (.searchTree q (.ok m)) ∈ ops ∧ m.clean = true ∧ e ∈ m.entries q

/-- A goroutine on which the hashing of the object `e` still depends. -/
def Task.owes (t : Task) (e : String × FsNode) : Prop :=
  match t.pc with
  | .start =>
    t.job = .processFile e.1 ∨
    ∃ q m, t.job = .searchTree q (.ok m) ∧ m.clean = true ∧ e ∈ m.entries q
  | .hashing => t.job = .processFile e.1
  | .walking todo _ => covered e todo
  | _ => False

/-- The object `e` is accounted for: its path is in the collector's map under
the fingerprint of its content, or some goroutine still owes its hashing. -/
def Accounted (env : Env) (s : State) (e : String × FsNode) : Prop :=
  (∃ c, env.readFile e.1 = some c ∧ e.1 ∈ result.index s.hashes (env.md5 c)) ∨
  ∃ i t, s.tasks.get? i = some t ∧ t.owes e

/-- The coverage invariant of the transition system: every eligible object of
`E` is accounted for, and the map that `run` returns is the collector's map. -/
structure Cov (env : Env) (E : List (String × FsNode)) (s : State) : Prop where
  accounted : ∀ e ∈ E, eligible e = true → Accounted env s e
  returned_eq : ∀ idx, s.returned = some idx → idx = s.hashes ∧ s.mainPc = .returned

end finder3

/-! ## Scenarios of the specification -/

/-- Scenario A: a directory holding the regular files `a`, `b` and `c`, of 5
bytes each. -/
def scenarioA : FsNode :=
  .dir 4096 (.entry "a" (.file true 5) (.entry "b" (.file true 5) (.entry "c" (.file true 5) .nil)))

/-- Scenario A: `a` and `b` contain "hello", `c` contains "world". -/
def scenarioARead (path : String) : Option Bytes :=
  if path = "d/a" ∨ path = "d/b" then some [104, 101, 108, 108, 111]
  else if path = "d/c" then some [119, 111, 114, 108, 100]
  else none

/-- A fingerprint function for the scenarios: the MD5 digests of "hello" and of
"world", and one more value for every other content. -/
def scenarioDigest (content : Bytes) : String :=
  if content = [104, 101, 108, 108, 111] then "5d41402abc4b2a76b9719d911017c592"
  else if content = [119, 111, 114, 108, 100] then "7d793037a0760186574b0282f2f435e7"
  else "d41d8cd98f00b204e9800998ecf8427e"

/-- Scenario B: a directory holding the empty regular files `e1` and `e2` and
the regular file `f` of 5 bytes. -/
def scenarioB : FsNode :=
  .dir 4096 (.entry "e1" (.file true 0) (.entry "e2" (.file true 0) (.entry "f" (.file true 5) .nil)))

/-- Scenario B: the two empty files have the same (empty) content, `f` contains
"hello". -/
def scenarioBRead (path : String) : Option Bytes :=
  if path = "d/f" then some [104, 101, 108, 108, 111] else some []

namespace finder3

/-- Scenario for a walker error, the directory `A`: it holds the directory `B`,
which cannot be read (permission denied), and then the regular files `c` and
`d`. -/
def scenarioDeniedA : FsNode :=
  .dir 4096 (.entry "B" (.unreadable 4096 .permission)
    (.entry "c" (.file true 5) (.entry "d" (.file true 5) .nil)))

/-- Scenario for a walker error: the root holds the directory `A` only. -/
def scenarioDenied : FsNode :=
  .dir 4096 (.entry "A" scenarioDeniedA .nil)

/-- Scenario for a walker error: every file holds "hello", the capacity of
`limits` is 4. -/
def scenarioEnv : Env :=
  { workers := 4, md5 := scenarioDigest, readFile := fun _ => some [104, 101, 108, 108, 111] }

end finder3

/-! ## Facts about the map -/

theorem result.index_assign (m : result) (k k' : String) (v : pathList) :
    result.index (result.assign m k v) k' = if k = k' then v else result.index m k' := by
  induction m with
  | nil => simp [result.assign, result.index]
  | cons e rest ih =>
    obtain ⟨a, b⟩ := e
    simp only [result.assign]
    by_cases hak : a = k
    · rw [if_pos hak]
      simp only [result.index]
      subst hak
      by_cases hk : a = k'
      · simp only [if_pos hk]
      · simp only [if_neg hk]
    · rw [if_neg hak]
      simp only [result.index]
      by_cases hk : a = k'
      · simp only [if_pos hk]
        rw [if_neg (fun h => hak (hk.trans h.symm))]
      · simp only [if_neg hk, ih]

theorem result.mem_assign (m : result) (k : String) (v : pathList) (e : String × pathList)
    (he : e ∈ result.assign m k v) : e = (k, v) ∨ e ∈ m := by
  induction m with
  | nil => simpa [result.assign] using he
  | cons x rest ih =>
    obtain ⟨a, b⟩ := x
    by_cases hak : a = k
    · subst hak
      simp only [result.assign, if_true, List.mem_cons] at he
      rcases he with h | h
      · exact Or.inl h
      · exact Or.inr (List.mem_cons_of_mem _ h)
    · simp only [result.assign, hak, if_false, List.mem_cons] at he
      rcases he with h | h
      · exact Or.inr (h ▸ List.mem_cons_self _ _)
      · rcases ih h with h' | h'
        · exact Or.inl h'
        · exact Or.inr (List.mem_cons_of_mem _ h')

theorem result.keys_assign (m : result) (k : String) (v : pathList) :
    result.keys (result.assign m k v) =
      if k ∈ result.keys m then result.keys m else result.keys m ++ [k] := by
  induction m with
  | nil => simp [result.assign, result.keys]
  | cons x rest ih =>
    obtain ⟨a, b⟩ := x
    by_cases hak : a = k
    · subst hak
      simp [result.assign, result.keys]
    · have hka : ¬ k = a := fun h => hak h.symm
      simp only [result.keys] at ih
      by_cases hin : k ∈ List.map Prod.fst rest
      · simp [result.assign, result.keys, hak, hka, hin, ih]
      · simp [result.assign, result.keys, hak, hka, hin, ih]

theorem result.mem_keys_assign (m : result) (k k' : String) (v : pathList) :
    k' ∈ result.keys (result.assign m k v) ↔ k' = k ∨ k' ∈ result.keys m := by
  rw [result.keys_assign]
  by_cases hin : k ∈ result.keys m
  · simp only [hin, if_true]
    constructor
    · exact Or.inr
    · rintro (h | h)
      · exact h ▸ hin
      · exact h
  · simp only [hin, if_false, List.mem_append, List.mem_singleton]
    tauto

theorem result.nodup_keys_assign (m : result) (k : String) (v : pathList)
    (h : (result.keys m).Nodup) : (result.keys (result.assign m k v)).Nodup := by
  rw [result.keys_assign]
  by_cases hin : k ∈ result.keys m
  · simpa [hin] using h
  · simp only [hin, if_false]
    refine List.Nodup.append h (List.nodup_singleton k) ?_
    intro a ha hk
    rw [List.mem_singleton] at hk
    exact hin (hk ▸ ha)

theorem result.total_assign (m : result) (k : String) (v : pathList) :
    result.total (result.assign m k v) + (result.index m k).length
      = result.total m + v.length := by
  induction m with
  | nil => simp [result.assign, result.index, result.total]
  | cons x rest ih =>
    obtain ⟨a, b⟩ := x
    by_cases hak : a = k
    · subst hak
      simp [result.assign, result.index, result.total]
      omega
    · simp only [result.total] at ih
      simp only [result.assign, result.index, result.total, hak, if_false, List.map_cons,
        List.sum_cons]
      omega

theorem result.index_mem (m : result) (k : String) (h : k ∈ result.keys m) :
    (k, result.index m k) ∈ m := by
  induction m with
  | nil => simp [result.keys] at h
  | cons x rest ih =>
    obtain ⟨a, b⟩ := x
    by_cases hak : a = k
    · subst hak
      simp [result.index]
    · have hk : k ∈ result.keys rest := by
        simp only [result.keys, List.map_cons, List.mem_cons] at h
        rcases h with h | h
        · exact absurd h.symm hak
        · exact h
      simp only [result.index, hak, if_false]
      exact List.mem_cons_of_mem _ (ih hk)

theorem result.index_of_mem (m : result) (e : String × pathList)
    (hn : (result.keys m).Nodup) (he : e ∈ m) : result.index m e.1 = e.2 := by
  induction m with
  | nil => simp at he
  | cons x rest ih =>
    obtain ⟨a, b⟩ := x
    simp only [result.keys, List.map_cons, List.nodup_cons] at hn
    rcases List.mem_cons.1 he with h | h
    · subst h
      simp [result.index]
    · have hne : ¬ a = e.1 := by
        intro hae
        exact hn.1 (hae ▸ List.mem_map_of_mem Prod.fst h)
      simp only [result.index, hne, if_false]
      exact ih hn.2 h

theorem result.index_eq_nil (m : result) (k : String) (h : k ∉ result.keys m) :
    result.index m k = [] := by
  induction m with
  | nil => rfl
  | cons x rest ih =>
    obtain ⟨a, b⟩ := x
    simp only [result.keys, List.map_cons, List.mem_cons, not_or] at h
    have hak : ¬ a = k := fun e => h.1 e.symm
    simp only [result.index, hak, if_false]
    exact ih h.2

/-! ## Facts about `record` and `collectHashes` -/

theorem record_index (m : result) (p : pair) (h : String) :
    result.index (record m p) h =
      if p.hash = h then result.index m h ++ [p.path] else result.index m h := by
  unfold record
  rw [result.index_assign]
  by_cases hp : p.hash = h
  · subst hp
    simp
  · simp [hp]

theorem foldl_record_index (ps : List pair) (m : result) (h : String) :
    result.index (ps.foldl record m) h =
      result.index m h ++ (ps.filter (fun p => decide (p.hash = h))).map pair.path := by
  induction ps generalizing m with
  | nil => simp
  | cons p ps ih =>
    rw [List.foldl_cons, ih, record_index]
    by_cases hp : p.hash = h
    · simp [hp, List.filter_cons]
    · simp [hp, List.filter_cons]

theorem foldl_record_keys (ps : List pair) (m : result) (h : String) :
    h ∈ result.keys (ps.foldl record m) ↔ h ∈ result.keys m ∨ ∃ p ∈ ps, p.hash = h := by
  induction ps generalizing m with
  | nil => simp
  | cons p ps ih =>
    rw [List.foldl_cons, ih]
    unfold record
    rw [result.mem_keys_assign]
    constructor
    · rintro ((h1 | h1) | ⟨q, hq, hqh⟩)
      · exact Or.inr ⟨p, List.mem_cons_self _ _, h1.symm⟩
      · exact Or.inl h1
      · exact Or.inr ⟨q, List.mem_cons_of_mem _ hq, hqh⟩
    · rintro (h1 | ⟨q, hq, hqh⟩)
      · exact Or.inl (Or.inr h1)
      · rcases List.mem_cons.1 hq with e | e
        · subst e
          exact Or.inl (Or.inl hqh.symm)
        · exact Or.inr ⟨q, e, hqh⟩

theorem foldl_record_nodup (ps : List pair) (m : result) (hm : (result.keys m).Nodup) :
    (result.keys (ps.foldl record m)).Nodup := by
  induction ps generalizing m with
  | nil => simpa using hm
  | cons p ps ih =>
    rw [List.foldl_cons]
    exact ih _ (result.nodup_keys_assign m _ _ hm)

theorem foldl_record_nonempty (ps : List pair) (m : result)
    (hm : ∀ e ∈ m, 1 ≤ e.2.length) : ∀ e ∈ ps.foldl record m, 1 ≤ e.2.length := by
  induction ps generalizing m with
  | nil => simpa using hm
  | cons p ps ih =>
    rw [List.foldl_cons]
    apply ih
    intro e he
    rcases result.mem_assign _ _ _ _ he with h | h
    · subst h
      simp
    · exact hm e h

theorem foldl_record_total (ps : List pair) (m : result) :
    result.total (ps.foldl record m) = result.total m + ps.length := by
  induction ps generalizing m with
  | nil => simp
  | cons p ps ih =>
    rw [List.foldl_cons, ih]
    have h := result.total_assign m p.hash (result.index m p.hash ++ [p.path])
    rw [List.length_append, List.length_singleton] at h
    rw [List.length_cons]
    unfold record
    omega

theorem collectHashes_keys (pairs : List pair) (h : String) :
    h ∈ result.keys (collectHashes pairs) ↔ ∃ p ∈ pairs, p.hash = h := by
  unfold collectHashes
  rw [foldl_record_keys]
  simp [result.keys]

theorem collectHashes_index (pairs : List pair) (h : String) :
    result.index (collectHashes pairs) h =
      (pairs.filter (fun p => decide (p.hash = h))).map pair.path := by
  unfold collectHashes
  rw [foldl_record_index]
  simp [result.index]

theorem collectHashes_nodup (pairs : List pair) :
    (result.keys (collectHashes pairs)).Nodup :=
  foldl_record_nodup pairs [] (by simp [result.keys])

theorem collectHashes_entry (pairs : List pair) (e : String × pathList)
    (he : e ∈ collectHashes pairs) : e.2 = result.index (collectHashes pairs) e.1 :=
  (result.index_of_mem _ e (collectHashes_nodup pairs) he).symm

/-- C10. The map built by `collectHashes` from a stream of pairs has the key `h`
exactly when some pair of the stream carries the fingerprint `h`; the path list
at `h` is the sequence of the paths of the pairs with fingerprint `h`, in
arrival order; no key is bound twice, every binding is the list read at its
key and holds at least one path; and the number of paths stored equals the
number of pairs received. -/
theorem collectHashes_index_exact (pairs : List pair) :
    (∀ h, h ∈ result.keys (collectHashes pairs) ↔ ∃ p ∈ pairs, p.hash = h) ∧
    (∀ h, result.index (collectHashes pairs) h =
        (pairs.filter (fun p => decide (p.hash = h))).map pair.path) ∧
    (result.keys (collectHashes pairs)).Nodup ∧
    (∀ e ∈ collectHashes pairs,
        e.2 = result.index (collectHashes pairs) e.1 ∧ 1 ≤ e.2.length) ∧
    result.total (collectHashes pairs) = pairs.length := by
  refine ⟨collectHashes_keys pairs, collectHashes_index pairs, collectHashes_nodup pairs, ?_, ?_⟩
  · intro e he
    refine ⟨collectHashes_entry pairs e he, ?_⟩
    have hne : ∀ x ∈ ([] : result), 1 ≤ x.2.length := by
      intro x hx
      cases hx
    exact foldl_record_nonempty pairs [] hne e he
  · have htot := foldl_record_total pairs []
    unfold collectHashes
    rw [htot]
    simp [result.total]

/-- C6. Two arrival orders of the same pairs (one stream a permutation of the
other) give maps with the same keys and, at every key, the same multiset of
paths (the two path lists are permutations of each other). -/
theorem collectHashes_order_independent (s1 s2 : List pair) (hperm : s1.Perm s2) :
    (∀ k, k ∈ result.keys (collectHashes s1) ↔ k ∈ result.keys (collectHashes s2)) ∧
    (∀ k, (result.index (collectHashes s1) k).Perm (result.index (collectHashes s2) k)) := by
  constructor
  · intro k
    rw [collectHashes_keys s1 k, collectHashes_keys s2 k]
    constructor
    · rintro ⟨p, hp, hk⟩
      exact ⟨p, hperm.mem_iff.1 hp, hk⟩
    · rintro ⟨p, hp, hk⟩
      exact ⟨p, hperm.mem_iff.2 hp, hk⟩
  · intro k
    rw [collectHashes_index s1 k, collectHashes_index s2 k]
    exact (hperm.filter _).map _

/-- Witness of C6 on the stream (h,a), (k,c), (h,b) and its reversal. -/
theorem collectHashes_order_independent_witness :
    (∀ k, k ∈ result.keys (collectHashes [⟨"h", "a"⟩, ⟨"k", "c"⟩, ⟨"h", "b"⟩]) ↔
          k ∈ result.keys (collectHashes [⟨"h", "b"⟩, ⟨"k", "c"⟩, ⟨"h", "a"⟩])) ∧
    (∀ k, (result.index (collectHashes [⟨"h", "a"⟩, ⟨"k", "c"⟩, ⟨"h", "b"⟩]) k).Perm
          (result.index (collectHashes [⟨"h", "b"⟩, ⟨"k", "c"⟩, ⟨"h", "a"⟩]) k)) :=
  collectHashes_order_independent _ _ (by decide)

/-! ## The report loop -/

theorem mainLoop_sound (iter : List (String × pathList)) :
    ∀ g ∈ (mainLoop iter).1, ∃ e ∈ iter, 1 < e.2.length ∧ g = Printed.ofEntry e := by
  induction iter with
  | nil => simp [mainLoop]
  | cons x rest ih =>
    obtain ⟨hash, paths⟩ := x
    intro g hg
    unfold mainLoop at hg
    by_cases hp : paths.length > 1
    · by_cases hh : hash.length < 7
      · simp [hp, hh] at hg
      · simp only [hp, hh, if_true, if_false, List.mem_cons] at hg
        rcases hg with h | h
        · exact ⟨(hash, paths), List.mem_cons_self _ _, hp, h⟩
        · obtain ⟨e, he, h1, h2⟩ := ih g h
          exact ⟨e, List.mem_cons_of_mem _ he, h1, h2⟩
    · simp only [hp, if_false] at hg
      obtain ⟨e, he, h1, h2⟩ := ih g hg
      exact ⟨e, List.mem_cons_of_mem _ he, h1, h2⟩

theorem mainLoop_complete (iter : List (String × pathList))
    (hkeys : ∀ e ∈ iter, 1 < e.2.length → 7 ≤ e.1.length) :
    (mainLoop iter).2 = none ∧ (mainLoop iter).1 = (report iter).map Printed.ofEntry := by
  induction iter with
  | nil => simp [mainLoop, report]
  | cons x rest ih =>
    obtain ⟨hash, paths⟩ := x
    have ih' := ih (fun e he => hkeys e (List.mem_cons_of_mem _ he))
    unfold mainLoop
    by_cases hp : paths.length > 1
    · have h7 : ¬ hash.length < 7 := by
        have := hkeys (hash, paths) (List.mem_cons_self _ _) hp
        simp only at this
        omega
      simp only [hp, h7, if_true, if_false]
      refine ⟨ih'.1, ?_⟩
      rw [ih'.2]
      simp [report, List.filter_cons, hp, Printed.ofEntry]
    · simp only [hp, if_false]
      refine ⟨ih'.1, ?_⟩
      rw [ih'.2]
      simp [report, List.filter_cons, hp]

/-- C5. Whatever order `range` yields the entries of the map in: every group
that `main` prints is an entry of the map with at least two paths (so an entry
with exactly one path is never printed); the entries selected for printing are
exactly the entries of the map whose path list is longer than 1; and when the
keys of those entries are fingerprints (at least 7 characters, as every digest
written by `hashFile` is) the loop finishes and prints exactly the selected
entries. -/
theorem main_prints_exactly_duplicate_groups (hashes : result)
    (iter : List (String × pathList)) (hperm : iter.Perm hashes) :
    (∀ g ∈ (mainLoop iter).1,
        2 ≤ g.paths.length ∧ g.n = g.paths.length ∧ ∃ e ∈ hashes, g = Printed.ofEntry e) ∧
    (∀ e ∈ hashes, e.2.length = 1 → ∀ g ∈ (mainLoop iter).1, g.paths.length ≠ 1) ∧
    (∀ e, e ∈ report iter ↔ e ∈ hashes ∧ 1 < e.2.length) ∧
    ((∀ e ∈ hashes, 1 < e.2.length → 7 ≤ e.1.length) →
        (mainLoop iter).2 = none ∧
        (mainLoop iter).1 = (report iter).map Printed.ofEntry) := by
  have hsound : ∀ g ∈ (mainLoop iter).1,
      2 ≤ g.paths.length ∧ g.n = g.paths.length ∧ ∃ e ∈ hashes, g = Printed.ofEntry e := by
    intro g hg
    obtain ⟨e, he, h1, h2⟩ := mainLoop_sound iter g hg
    subst h2
    exact ⟨h1, rfl, e, hperm.mem_iff.1 he, rfl⟩
  refine ⟨hsound, ?_, ?_, ?_⟩
  · intro _ _ _ g hg h1
    have := (hsound g hg).1
    omega
  · intro e
    simp only [report, List.mem_filter, decide_eq_true_eq, hperm.mem_iff]
  · intro hkeys
    exact mainLoop_complete iter (fun e he => hkeys e (hperm.mem_iff.1 he))

/-- Witness of C5: a map with one duplicate group and one single path, ranged
over in the reverse of the insertion order. -/
theorem main_prints_exactly_duplicate_groups_witness :
    (mainLoop [("9e107d9d372bb6826bd81d3542a419d6", ["c"]),
               ("5d41402abc4b2a76b9719d911017c592", ["a", "b"])]).1
      = [⟨"017c592", 2, ["a", "b"]⟩] ∧
    (∀ e, e ∈ report [("9e107d9d372bb6826bd81d3542a419d6", ["c"]),
                      ("5d41402abc4b2a76b9719d911017c592", ["a", "b"])] ↔
          e ∈ [("5d41402abc4b2a76b9719d911017c592", ["a", "b"]),
               ("9e107d9d372bb6826bd81d3542a419d6", ["c"])] ∧ 1 < e.2.length) :=
  ⟨by decide,
   (main_prints_exactly_duplicate_groups
      [("5d41402abc4b2a76b9719d911017c592", ["a", "b"]),
       ("9e107d9d372bb6826bd81d3542a419d6", ["c"])]
      [("9e107d9d372bb6826bd81d3542a419d6", ["c"]),
       ("5d41402abc4b2a76b9719d911017c592", ["a", "b"])] (by decide)).2.2.1⟩

/-! ## finder0: the sequential walk -/

theorem finder0.visit_spec (md5 : Bytes → String) (readFile : String → Option Bytes)
    (path : String) (f : Option FsNode) (err : Option GoError) (s s' : result) (r : Res)
    (herr : err ≠ some .skipDir)
    (h : finder0.visit md5 readFile path f err s = (s', r)) :
    r ≠ .ret (some .skipDir) ∧
    (s' = s ∨ ∃ n c, f = some n ∧ eligible (path, n) = true ∧ readFile path = some c ∧
        s' = record s { hash := md5 c, path := path }) ∧
    (r = .ret none → ∃ n, f = some n ∧
      ((eligible (path, n) = true → ∃ c, readFile path = some c ∧
          s' = record s { hash := md5 c, path := path }) ∧
       (eligible (path, n) = false → s' = s))) := by
  unfold finder0.visit at h
  by_cases hf : fatalWalkError err = true
  · rw [if_pos hf] at h
    obtain ⟨h1, h2⟩ := Prod.mk.inj h
    subst h2
    cases err with
    | none => simp [fatalWalkError] at hf
    | some e =>
      cases e with
      | skipDir => exact absurd rfl herr
      | fs e => exact ⟨by simp, Or.inl h1.symm, by simp⟩
  · rw [if_neg hf] at h
    cases f with
    | none =>
      obtain ⟨h1, h2⟩ := Prod.mk.inj h
      subst h2
      exact ⟨by simp, Or.inl h1.symm, by simp⟩
    | some n =>
      simp only at h
      by_cases hel : (n.isRegular && decide (n.size > 0)) = true
      · rw [if_pos hel] at h
        unfold hashFile at h
        cases hrd : readFile path with
        | none =>
          rw [hrd] at h
          obtain ⟨h1, h2⟩ := Prod.mk.inj h
          subst h2
          exact ⟨by simp, Or.inl h1.symm, by simp⟩
        | some c =>
          rw [hrd] at h
          obtain ⟨h1, h2⟩ := Prod.mk.inj h
          subst h2
          refine ⟨by simp, Or.inr ⟨n, c, rfl, hel, rfl, h1.symm⟩, fun _ => ⟨n, rfl, ?_, ?_⟩⟩
          · intro _
            exact ⟨c, rfl, h1.symm⟩
          · intro hne
            simp [eligible, hel] at hne
      · rw [if_neg hel] at h
        obtain ⟨h1, h2⟩ := Prod.mk.inj h
        subst h2
        refine ⟨by simp, Or.inl h1.symm, fun _ => ⟨n, rfl, ?_, ?_⟩⟩
        · intro hne
          exact absurd hne hel
        · intro _
          exact h1.symm

theorem hashStream_append (md5 : Bytes → String) (readFile : String → Option Bytes)
    (xs ys : List (String × FsNode)) :
    hashStream md5 readFile (xs ++ ys) = hashStream md5 readFile xs ++ hashStream md5 readFile ys := by
  simp [hashStream, List.filterMap_append]

theorem hashStream_single (md5 : Bytes → String) (readFile : String → Option Bytes)
    (path : String) (n : FsNode) :
    hashStream md5 readFile [(path, n)] =
      if eligible (path, n) = true then
        match readFile path with
        | some c => [{ hash := md5 c, path := path }]
        | none => []
      else [] := by
  by_cases hel : eligible (path, n) = true
  · cases hc : readFile path <;> simp [hashStream, hel, hc]
  · simp [hashStream, hel]

/-- What one call of the visit closure of finder0 on an object of the tree does
to the map, in terms of `hashStream`. -/
theorem finder0.visit_node (md5 : Bytes → String) (readFile : String → Option Bytes)
    (path : String) (n : FsNode) (err : Option GoError) (s s' : result) (r : Res)
    (herr : err ≠ some .skipDir)
    (h : finder0.visit md5 readFile path (some n) err s = (s', r)) :
    r ≠ .ret (some .skipDir) ∧
    ∃ ps, ps <+: hashStream md5 readFile [(path, n)] ∧ s' = ps.foldl record s ∧
      (r = .ret none → ps = hashStream md5 readFile [(path, n)] ∧
        (eligible (path, n) = true → (readFile path).isSome = true)) := by
  obtain ⟨h1, h2, h3⟩ := finder0.visit_spec md5 readFile path _ err s s' r herr h
  refine ⟨h1, ?_⟩
  rcases h2 with h2 | ⟨n', c, hn, hel, hc, hs⟩
  · refine ⟨[], List.nil_prefix, by simp [h2], fun hr => ?_⟩
    obtain ⟨n', hn, hy, hnn⟩ := h3 hr
    cases hn
    by_cases hel : eligible (path, n) = true
    · obtain ⟨c, hc, hs⟩ := hy hel
      -- the map was changed by `record`, which never returns its argument
      exfalso
      have hi := record_index s { hash := md5 c, path := path } (md5 c)
      rw [← hs, h2] at hi
      simp at hi
    · rw [hashStream_single]
      simp [hel]
  · cases hn
    refine ⟨[{ hash := md5 c, path := path }], ?_, by simp [hs], fun _ => ⟨?_, fun _ => by simp [hc]⟩⟩
    · rw [hashStream_single]
      simp [hel, hc]
    · rw [hashStream_single]
      simp [hel, hc]

mutual
theorem finder0.walk_spec (md5 : Bytes → String) (readFile : String → Option Bytes) :
    ∀ (node : FsNode) (path : String) (s s' : result) (r : Res),
      walk (finder0.visit md5 readFile) path node s = (s', r) →
      r ≠ .ret (some .skipDir) ∧
      ∃ ps, ps <+: hashStream md5 readFile (node.entries path) ∧ s' = ps.foldl record s ∧
        (r = .ret none → ps = hashStream md5 readFile (node.entries path) ∧
          ∀ e ∈ node.entries path, eligible e = true → (readFile e.1).isSome = true)
  | .file rg sz, path, s, s', r, h => by
    rw [walk] at h
    obtain ⟨h1, ps, hp, hs, hc⟩ := finder0.visit_node md5 readFile path _ none s s' r (by simp) h
    refine ⟨h1, ps, by simpa [FsNode.entries] using hp, hs, fun hr => ?_⟩
    obtain ⟨c1, c2⟩ := hc hr
    refine ⟨by simpa [FsNode.entries] using c1, ?_⟩
    intro e he hel
    simp only [FsNode.entries, List.mem_singleton] at he
    subst he
    exact c2 hel
  | .dir sz es, path, s, s', r, h => by
    rw [walk] at h
    generalize hv : finder0.visit md5 readFile path (some (FsNode.dir sz es)) none s = v at h
    obtain ⟨s1, r1⟩ := v
    obtain ⟨hv1, hv2, hv3⟩ := finder0.visit_spec md5 readFile path _ none s s1 r1 (by simp) hv
    have hnel : eligible (path, FsNode.dir sz es) = false := by simp [eligible, FsNode.isRegular]
    have hs1 : s1 = s := by
      rcases hv2 with hv2 | ⟨n, c, hn, hel, _⟩
      · exact hv2
      · cases hn
        rw [hnel] at hel
        exact absurd hel (by simp)
    subst hs1
    have hent : hashStream md5 readFile ((FsNode.dir sz es).entries path)
        = hashStream md5 readFile (es.entries path) := by
      rw [FsNode.entries]
      simp [hashStream, hnel]
    cases r1 with
    | crash c =>
      simp only at h
      obtain ⟨h1, h2⟩ := Prod.mk.inj h
      subst h1 h2
      exact ⟨by simp, [], List.nil_prefix, by simp, by simp⟩
    | ret o =>
      cases o with
      | some e =>
        simp only at h
        obtain ⟨h1, h2⟩ := Prod.mk.inj h
        subst h1 h2
        exact ⟨hv1, [], List.nil_prefix, by simp, by simp⟩
      | none =>
        simp only at h
        obtain ⟨k1, ps, kp, ks, kc⟩ := finder0.walkNames_spec md5 readFile es path s1 s' r h
        refine ⟨k1, ps, hent ▸ kp, ks, fun hr => ?_⟩
        obtain ⟨k3, k4⟩ := kc hr
        refine ⟨hent ▸ k3, ?_⟩
        intro e he he'
        simp only [FsNode.entries, List.mem_cons] at he
        rcases he with he | he
        · subst he
          rw [hnel] at he'
          exact absurd he' (by simp)
        · exact k4 e he he'
  | .unreadable sz e, path, s, s', r, h => by
    rw [walk] at h
    obtain ⟨h1, ps, hp, hs, hc⟩ := finder0.visit_node md5 readFile path _ _ s s' r (by simp) h
    refine ⟨h1, ps, by simpa [FsNode.entries] using hp, hs, fun hr => ?_⟩
    obtain ⟨c1, c2⟩ := hc hr
    refine ⟨by simpa [FsNode.entries] using c1, ?_⟩
    intro x hx hel
    simp only [FsNode.entries, List.mem_singleton] at hx
    subst hx
    exact c2 hel
theorem finder0.walkNames_spec (md5 : Bytes → String) (readFile : String → Option Bytes) :
    ∀ (es : FsList) (path : String) (s s' : result) (r : Res),
      walkNames (finder0.visit md5 readFile) path es s = (s', r) →
      r ≠ .ret (some .skipDir) ∧
      ∃ ps, ps <+: hashStream md5 readFile (es.entries path) ∧ s' = ps.foldl record s ∧
        (r = .ret none → ps = hashStream md5 readFile (es.entries path) ∧
          ∀ e ∈ es.entries path, eligible e = true → (readFile e.1).isSome = true)
  | .nil, path, s, s', r, h => by
    rw [walkNames] at h
    obtain ⟨h1, h2⟩ := Prod.mk.inj h
    subst h1 h2
    exact ⟨by simp, [], List.nil_prefix, by simp,
      fun _ => ⟨by simp [FsList.entries, hashStream], by simp [FsList.entries]⟩⟩
  | .vanished name e rest, path, s, s', r, h => by
    rw [walkNames] at h
    generalize hv : finder0.visit md5 readFile (Join path name) none (some (GoError.fs e)) s = v
      at h
    obtain ⟨s1, r1⟩ := v
    obtain ⟨hv1, hv2, hv3⟩ := finder0.visit_spec md5 readFile _ _ _ s s1 r1 (by simp) hv
    have hs1 : s1 = s := by
      rcases hv2 with hv2 | ⟨n, c, hn, _⟩
      · exact hv2
      · cases hn
    subst hs1
    cases r1 with
    | crash c =>
      simp only at h
      obtain ⟨h1, h2⟩ := Prod.mk.inj h
      subst h1 h2
      exact ⟨by simp, [], List.nil_prefix, by simp, by simp⟩
    | ret o =>
      cases o with
      | none =>
        obtain ⟨n, hn, _⟩ := hv3 rfl
        cases hn
      | some x =>
        cases x with
        | skipDir => exact absurd rfl hv1
        | fs y =>
          simp only at h
          obtain ⟨h1, h2⟩ := Prod.mk.inj h
          subst h1 h2
          exact ⟨by simp, [], List.nil_prefix, by simp, by simp⟩
  | .entry name node rest, path, s, s', r, h => by
    rw [walkNames] at h
    generalize hw : walk (finder0.visit md5 readFile) (Join path name) node s = w at h
    obtain ⟨s1, r1⟩ := w
    obtain ⟨hw1, qs, hq, hqs, hqc⟩ := finder0.walk_spec md5 readFile node (Join path name) s s1 r1 hw
    have hpre : qs <+: hashStream md5 readFile ((FsList.entry name node rest).entries path) := by
      rw [FsList.entries, hashStream_append]
      exact hq.trans (List.prefix_append _ _)
    cases r1 with
    | crash c =>
      simp only at h
      obtain ⟨h1, h2⟩ := Prod.mk.inj h
      subst h1 h2
      exact ⟨by simp, qs, hpre, hqs, by simp⟩
    | ret o =>
      cases o with
      | some x =>
        cases x with
        | skipDir => exact absurd rfl hw1
        | fs y =>
          simp only at h
          have hne : (!node.isDir || GoError.fs y != GoError.skipDir) = true := by simp
          rw [if_pos hne] at h
          obtain ⟨h1, h2⟩ := Prod.mk.inj h
          subst h1 h2
          exact ⟨by simp, qs, hpre, hqs, by simp⟩
      | none =>
        simp only at h
        obtain ⟨k1, ps, kp, ks, kc⟩ := finder0.walkNames_spec md5 readFile rest path s1 s' r h
        obtain ⟨w3, w4⟩ := hqc rfl
        refine ⟨k1, qs ++ ps, ?_, ?_, fun hr => ?_⟩
        · rw [FsList.entries, hashStream_append, w3]
          exact (List.prefix_append_right_inj _).2 kp
        · rw [List.foldl_append, ← hqs, ks]
        · obtain ⟨k3, k4⟩ := kc hr
          constructor
          · rw [FsList.entries, hashStream_append, w3, k3]
          · intro x hx hx'
            rw [FsList.entries, List.mem_append] at hx
            rcases hx with hx | hx
            · exact w4 x hx hx'
            · exact k4 x hx hx'
end

theorem mem_hashStream (md5 : Bytes → String) (readFile : String → Option Bytes)
    (es : List (String × FsNode)) (p : pair) :
    p ∈ hashStream md5 readFile es ↔
      ∃ e ∈ es, eligible e = true ∧ ∃ c, readFile e.1 = some c ∧ p = { hash := md5 c, path := e.1 } := by
  unfold hashStream
  rw [List.mem_filterMap]
  constructor
  · rintro ⟨e, he, hp⟩
    by_cases hel : eligible e = true
    · rw [if_pos hel] at hp
      cases hc : readFile e.1 with
      | none => simp [hc] at hp
      | some c =>
        rw [hc] at hp
        simp only [Option.map_some', Option.some.injEq] at hp
        exact ⟨e, he, hel, c, hc, hp.symm⟩
    · rw [if_neg hel] at hp
      cases hp
  · rintro ⟨e, he, hel, c, hc, hp⟩
    refine ⟨e, he, ?_⟩
    rw [if_pos hel, hc, hp]
    rfl

/-- The outcome of `searchTree` of finder0: the map is `collectHashes` of the pairs
of the eligible objects met, in walk order; on a `nil` error all of the tree
was walked and every eligible object was read. -/
theorem finder0.searchTree_spec (md5 : Bytes → String) (readFile : String → Option Bytes)
    (dir : String) (lst : Except FsError FsNode) (hashes : result) (r : Res)
    (h : finder0.searchTree md5 readFile dir lst = (hashes, r)) :
    ∃ ps, hashes = collectHashes ps ∧
      (∀ p ∈ ps, ∃ root, lst = .ok root ∧ p ∈ hashStream md5 readFile (root.entries dir)) ∧
      (r = .ret none → ∃ root, lst = .ok root ∧
        ps = hashStream md5 readFile (root.entries dir) ∧
        ∀ e ∈ root.entries dir, eligible e = true → (readFile e.1).isSome = true) := by
  unfold finder0.searchTree Walk at h
  cases lst with
  | error e =>
    simp only at h
    generalize hv : finder0.visit md5 readFile dir none (some (GoError.fs e)) [] = v at h
    obtain ⟨s1, r1⟩ := v
    obtain ⟨hv1, hv2, hv3⟩ := finder0.visit_spec md5 readFile _ _ _ _ s1 r1 (by simp) hv
    have hs1 : s1 = [] := by
      rcases hv2 with hv2 | ⟨n, c, hn, _⟩
      · exact hv2
      · cases hn
    subst hs1
    have hr1 : r1 ≠ .ret none := by
      intro hr
      obtain ⟨n, hn, _⟩ := hv3 hr
      cases hn
    refine ⟨[], ?_, by simp, ?_⟩
    · cases r1 with
      | crash c =>
        simp only at h
        exact (Prod.mk.inj h).1.symm
      | ret o =>
        cases o with
        | none => exact absurd rfl hr1
        | some x =>
          cases x with
          | skipDir => exact absurd rfl hv1
          | fs y =>
            simp only at h
            exact (Prod.mk.inj h).1.symm
    · intro hr
      subst hr
      cases r1 with
      | crash c =>
        simp only at h
        exact absurd (Prod.mk.inj h).2 (by simp)
      | ret o =>
        cases o with
        | none => exact absurd rfl hr1
        | some x =>
          cases x with
          | skipDir => exact absurd rfl hv1
          | fs y =>
            simp only at h
            exact absurd (Prod.mk.inj h).2 (by simp)
  | ok root =>
    simp only at h
    generalize hw : walk (finder0.visit md5 readFile) dir root [] = w at h
    obtain ⟨s1, r1⟩ := w
    obtain ⟨hw1, ps, hp, hs, hc⟩ := finder0.walk_spec md5 readFile root dir [] s1 r1 hw
    have hsame : (s1, r1) = (hashes, r) := by
      cases r1 with
      | crash c => simpa using h
      | ret o =>
        cases o with
        | none => simpa using h
        | some x =>
          cases x with
          | skipDir => exact absurd rfl hw1
          | fs y => simpa using h
    obtain ⟨h1, h2⟩ := Prod.mk.inj hsame
    subst h1 h2
    refine ⟨ps, hs, fun p hp' => ⟨root, rfl, hp.subset hp'⟩, fun hr => ?_⟩
    obtain ⟨c1, c2⟩ := hc hr
    exact ⟨root, rfl, c1, c2⟩

theorem List.one_lt_length_of_two_mem {α : Type} (l : List α) (a b : α)
    (ha : a ∈ l) (hb : b ∈ l) (hab : a ≠ b) : 1 < l.length := by
  match l, ha, hb with
  | [], ha, _ => simp at ha
  | [x], ha, hb =>
    simp only [List.mem_singleton] at ha hb
    exact absurd (ha.trans hb.symm) hab
  | _ :: _ :: _, _, _ => simp

/-! ## finder3: the operations of a walker come in couples -/

theorem finder3.paired_append (a b : List finder3.Op) (ha : finder3.paired a = true)
    (hb : finder3.paired b = true) : finder3.paired (a ++ b) = true := by
  match a, ha with
  | [], _ => simpa using hb
  | .add delta :: .go j :: rest, ha =>
    simp only [finder3.paired, Bool.and_eq_true] at ha
    simp only [List.cons_append, finder3.paired, Bool.and_eq_true]
    exact ⟨ha.1, finder3.paired_append rest b ha.2 hb⟩
  | [.add _], ha => simp [finder3.paired] at ha
  | .add _ :: .add _ :: _, ha => simp [finder3.paired] at ha
  | .go _ :: _, ha => simp [finder3.paired] at ha

theorem finder3.visit_paired (dir path : String) (f : Option FsNode) (err : Option GoError)
    (ops ops' : List finder3.Op) (r : Res)
    (h : finder3.visit dir path f err ops = (ops', r)) :
    ∃ new, ops' = ops ++ new ∧ finder3.paired new = true := by
  unfold finder3.visit at h
  by_cases hf : fatalWalkError err = true
  · rw [if_pos hf] at h
    exact ⟨[], by simp [(Prod.mk.inj h).1], rfl⟩
  · rw [if_neg hf] at h
    cases f with
    | none => exact ⟨[], by simp [(Prod.mk.inj h).1], rfl⟩
    | some n =>
      simp only at h
      by_cases hd : (n.isDir && path != dir) = true
      · rw [if_pos hd] at h
        exact ⟨_, (Prod.mk.inj h).1.symm, by simp [finder3.paired]⟩
      · rw [if_neg hd] at h
        by_cases hel : (n.isRegular && decide (n.size > 0)) = true
        · rw [if_pos hel] at h
          exact ⟨_, (Prod.mk.inj h).1.symm, by simp [finder3.paired]⟩
        · rw [if_neg hel] at h
          exact ⟨[], by simp [(Prod.mk.inj h).1], rfl⟩

mutual
theorem finder3.walk_paired (dir : String) :
    ∀ (node : FsNode) (path : String) (ops ops' : List finder3.Op) (r : Res),
      walk (finder3.visit dir) path node ops = (ops', r) →
      ∃ new, ops' = ops ++ new ∧ finder3.paired new = true
  | .file rg sz, path, ops, ops', r, h => by
    rw [walk] at h
    exact finder3.visit_paired dir path _ _ ops ops' r h
  | .unreadable sz e, path, ops, ops', r, h => by
    rw [walk] at h
    exact finder3.visit_paired dir path _ _ ops ops' r h
  | .dir sz es, path, ops, ops', r, h => by
    rw [walk] at h
    generalize hv : finder3.visit dir path (some (FsNode.dir sz es)) none ops = v at h
    obtain ⟨s1, r1⟩ := v
    obtain ⟨n1, e1, p1⟩ := finder3.visit_paired dir path _ _ ops s1 r1 hv
    cases r1 with
    | crash c =>
      simp only at h
      exact ⟨n1, (Prod.mk.inj h).1 ▸ e1, p1⟩
    | ret o =>
      cases o with
      | some e =>
        simp only at h
        exact ⟨n1, (Prod.mk.inj h).1 ▸ e1, p1⟩
      | none =>
        simp only at h
        obtain ⟨n2, e2, p2⟩ := finder3.walkNames_paired dir es path s1 ops' r h
        exact ⟨n1 ++ n2, by rw [e2, e1, List.append_assoc], finder3.paired_append _ _ p1 p2⟩
theorem finder3.walkNames_paired (dir : String) :
    ∀ (es : FsList) (path : String) (ops ops' : List finder3.Op) (r : Res),
      walkNames (finder3.visit dir) path es ops = (ops', r) →
      ∃ new, ops' = ops ++ new ∧ finder3.paired new = true
  | .nil, path, ops, ops', r, h => by
    rw [walkNames] at h
    exact ⟨[], by simp [(Prod.mk.inj h).1], rfl⟩
  | .vanished name e rest, path, ops, ops', r, h => by
    rw [walkNames] at h
    generalize hv : finder3.visit dir (Join path name) none (some (GoError.fs e)) ops = v at h
    obtain ⟨s1, r1⟩ := v
    obtain ⟨n1, e1, p1⟩ := finder3.visit_paired dir _ _ _ ops s1 r1 hv
    cases r1 with
    | crash c =>
      simp only at h
      exact ⟨n1, (Prod.mk.inj h).1 ▸ e1, p1⟩
    | ret o =>
      cases o with
      | none =>
        simp only at h
        obtain ⟨n2, e2, p2⟩ := finder3.walkNames_paired dir rest path s1 ops' r h
        exact ⟨n1 ++ n2, by rw [e2, e1, List.append_assoc], finder3.paired_append _ _ p1 p2⟩
      | some x =>
        cases x with
        | skipDir =>
          simp only at h
          obtain ⟨n2, e2, p2⟩ := finder3.walkNames_paired dir rest path s1 ops' r h
          exact ⟨n1 ++ n2, by rw [e2, e1, List.append_assoc], finder3.paired_append _ _ p1 p2⟩
        | fs y =>
          simp only at h
          exact ⟨n1, (Prod.mk.inj h).1 ▸ e1, p1⟩
  | .entry name node rest, path, ops, ops', r, h => by
    rw [walkNames] at h
    generalize hw : walk (finder3.visit dir) (Join path name) node ops = w at h
    obtain ⟨s1, r1⟩ := w
    obtain ⟨n1, e1, p1⟩ := finder3.walk_paired dir node (Join path name) ops s1 r1 hw
    cases r1 with
    | crash c =>
      simp only at h
      exact ⟨n1, (Prod.mk.inj h).1 ▸ e1, p1⟩
    | ret o =>
      cases o with
      | none =>
        simp only at h
        obtain ⟨n2, e2, p2⟩ := finder3.walkNames_paired dir rest path s1 ops' r h
        exact ⟨n1 ++ n2, by rw [e2, e1, List.append_assoc], finder3.paired_append _ _ p1 p2⟩
      | some x =>
        simp only at h
        by_cases hc : (!node.isDir || x != GoError.skipDir) = true
        · rw [if_pos hc] at h
          exact ⟨n1, (Prod.mk.inj h).1 ▸ e1, p1⟩
        · rw [if_neg hc] at h
          obtain ⟨n2, e2, p2⟩ := finder3.walkNames_paired dir rest path s1 ops' r h
          exact ⟨n1 ++ n2, by rw [e2, e1, List.append_assoc], finder3.paired_append _ _ p1 p2⟩
end

theorem finder3.walkOps_paired (dir : String) (lst : Except FsError FsNode) :
    finder3.paired (finder3.walkOps dir lst).1 = true := by
  unfold finder3.walkOps Walk
  cases lst with
  | error e =>
    simp only
    generalize hv : finder3.visit dir dir none (some (GoError.fs e)) [] = v
    obtain ⟨s1, r1⟩ := v
    obtain ⟨new, e1, p1⟩ := finder3.visit_paired dir _ _ _ _ s1 r1 hv
    simp only [List.nil_append] at e1
    subst e1
    cases r1 with
    | crash c => exact p1
    | ret o =>
      cases o with
      | none => exact p1
      | some x => cases x <;> exact p1
  | ok root =>
    simp only
    generalize hw : walk (finder3.visit dir) dir root [] = w
    obtain ⟨s1, r1⟩ := w
    obtain ⟨new, e1, p1⟩ := finder3.walk_paired dir root dir [] s1 r1 hw
    simp only [List.nil_append] at e1
    subst e1
    cases r1 with
    | crash c => exact p1
    | ret o =>
      cases o with
      | none => exact p1
      | some x => cases x <;> exact p1

/-! ## finder3: the invariant of the task group -/

theorem sum_map_set {α : Type} (f : α → Nat) :
    ∀ (l : List α) (i : Nat) (t t' : α), l.get? i = some t →
      ((l.set i t').map f).sum + f t = (l.map f).sum + f t'
  | [], i, t, t', h => by simp at h
  | x :: xs, 0, t, t', h => by
    simp only [List.get?_cons_zero, Option.some.injEq] at h
    subst h
    simp only [List.set_cons_zero, List.map_cons, List.sum_cons]
    omega
  | x :: xs, i + 1, t, t', h => by
    simp only [List.get?_cons_succ] at h
    have := sum_map_set f xs i t t' h
    simp only [List.set_cons_succ, List.map_cons, List.sum_cons]
    omega

theorem forall_mem_set {α : Type} (P : α → Prop) (l : List α) (i : Nat) (t' : α)
    (h : ∀ t ∈ l, P t) (h' : P t') : ∀ t ∈ l.set i t', P t := by
  intro t ht
  rcases List.mem_or_eq_of_mem_set ht with h1 | h1
  · exact h t h1
  · exact h1 ▸ h'

theorem finder3.owed_of_paired (job : finder3.Job) (todo : List finder3.Op) (r : Res)
    (a b : Nat) (h : finder3.paired todo = true) :
    finder3.owed { job := job, pc := .walking todo r, acquires := a, releases := b } = 0 := by
  match todo, h with
  | [], _ => rfl
  | .add _ :: _, _ => rfl
  | .go _ :: _, h => simp [finder3.paired] at h

theorem finder3.pairedTail_of_paired (todo : List finder3.Op) (h : finder3.paired todo = true) :
    finder3.pairedTail todo = true := by
  match todo, h with
  | [], _ => rfl
  | .add _ :: _, h => simpa [finder3.pairedTail] using h
  | .go _ :: _, h => simp [finder3.paired] at h

theorem finder3.init_inv (env : finder3.Env) (dir : String) (lst : Except FsError FsNode) :
    finder3.Inv env (finder3.init dir lst) := by
  refine ⟨?_, ?_, ?_, ?_, ?_, ?_⟩
  · simp [finder3.init, finder3.outstanding, finder3.live, finder3.owed]
  · simp [finder3.init, finder3.inFlight, finder3.holding]
  · simp [finder3.init]
  · intro t ht
    simp only [finder3.init, List.mem_singleton] at ht
    subst ht
    simp [finder3.Task.ok]
  · intro h
    simp [finder3.init] at h
  · intro h
    simp [finder3.init] at h

theorem finder3.stepTask_inv (env : finder3.Env) (s s' : finder3.State) (i : Nat)
    (h : finder3.stepTask env s i = some s') (hinv : finder3.Inv env s) :
    finder3.Inv env s' := by
  unfold finder3.stepTask at h
  cases hget : s.tasks.get? i with
  | none =>
    rw [hget] at h
    cases h
  | some t =>
    rw [hget] at h
    simp only at h
    have hl := fun t' => sum_map_set finder3.live s.tasks i t t' hget
    have ho := fun t' => sum_map_set finder3.owed s.tasks i t t' hget
    have hh := fun t' => sum_map_set finder3.holding s.tasks i t t' hget
    have htok := hinv.tasks_ok t (List.get?_mem hget)
    have hc := hinv.count_eq
    have hlim := hinv.limits_eq
    unfold finder3.outstanding at hc
    unfold finder3.inFlight at hlim
    obtain ⟨job, pc, acq, rel⟩ := t
    cases pc with
    | start =>
      simp only at h
      by_cases hlt : s.limits < env.workers
      · rw [if_pos hlt] at h
        cases h
        simp only [finder3.Task.ok] at htok
        cases job with
        | searchTree path lst =>
          have hp := finder3.walkOps_paired path lst
          have hl' := hl ⟨.searchTree path lst, finder3.body (.searchTree path lst), acq + 1, rel⟩
          have ho' := ho ⟨.searchTree path lst, finder3.body (.searchTree path lst), acq + 1, rel⟩
          have hh' := hh ⟨.searchTree path lst, finder3.body (.searchTree path lst), acq + 1, rel⟩
          simp only [finder3.body] at hl' ho' hh' ⊢
          rw [finder3.owed_of_paired _ _ _ _ _ hp] at ho'
          simp only [finder3.live, finder3.owed, finder3.holding] at hl' ho' hh'
          refine ⟨?_, ?_, ?_, ?_, hinv.main_past, hinv.closed_main⟩
          · simp only [finder3.outstanding]
            omega
          · simp only [finder3.inFlight]
            omega
          · simp only
            omega
          · apply forall_mem_set _ _ _ _ hinv.tasks_ok
            simp only [finder3.Task.ok]
            exact ⟨finder3.pairedTail_of_paired _ hp, by omega, htok.2⟩
        | processFile path =>
          have hl' := hl ⟨.processFile path, .hashing, acq + 1, rel⟩
          have ho' := ho ⟨.processFile path, .hashing, acq + 1, rel⟩
          have hh' := hh ⟨.processFile path, .hashing, acq + 1, rel⟩
          simp only [finder3.live, finder3.owed, finder3.holding] at hl' ho' hh'
          simp only [finder3.body]
          refine ⟨?_, ?_, ?_, ?_, hinv.main_past, hinv.closed_main⟩
          · simp only [finder3.outstanding]
            omega
          · simp only [finder3.inFlight]
            omega
          · simp only
            omega
          · apply forall_mem_set _ _ _ _ hinv.tasks_ok
            simp only [finder3.Task.ok]
            exact ⟨by omega, htok.2⟩
      · rw [if_neg hlt] at h
        cases h
    | walking todo r =>
      simp only [finder3.Task.ok] at htok
      cases todo with
      | nil =>
        simp only at h
        cases h
        have hl' := hl ⟨job, .unwinding r, acq, rel⟩
        have ho' := ho ⟨job, .unwinding r, acq, rel⟩
        have hh' := hh ⟨job, .unwinding r, acq, rel⟩
        simp only [finder3.live, finder3.owed, finder3.holding] at hl' ho' hh'
        refine ⟨?_, ?_, hinv.limits_le, ?_, hinv.main_past, hinv.closed_main⟩
        · simp only [finder3.outstanding]
          omega
        · simp only [finder3.inFlight]
          omega
        · apply forall_mem_set _ _ _ _ hinv.tasks_ok
          simp only [finder3.Task.ok]
          exact htok.2
      | cons op rest =>
        cases op with
        | add delta =>
          simp only at h
          cases h
          cases rest with
          | nil => simp [finder3.pairedTail, finder3.paired] at htok
          | cons op2 rest2 =>
            cases op2 with
            | add d2 => simp [finder3.pairedTail, finder3.paired] at htok
            | go j =>
              simp only [finder3.pairedTail, finder3.paired, Bool.and_eq_true,
                decide_eq_true_eq] at htok
              obtain ⟨⟨hd, hp⟩, ha, hr⟩ := htok
              subst hd
              have hl' := hl ⟨job, .walking (.go j :: rest2) r, acq, rel⟩
              have ho' := ho ⟨job, .walking (.go j :: rest2) r, acq, rel⟩
              have hh' := hh ⟨job, .walking (.go j :: rest2) r, acq, rel⟩
              simp only [finder3.live, finder3.owed, finder3.holding] at hl' ho' hh'
              refine ⟨?_, ?_, hinv.limits_le, ?_, ?_, hinv.closed_main⟩
              · simp only [finder3.outstanding]
                omega
              · simp only [finder3.inFlight]
                omega
              · apply forall_mem_set _ _ _ _ hinv.tasks_ok
                simp only [finder3.Task.ok, finder3.pairedTail]
                exact ⟨hp, ha, hr⟩
              · intro h1 h2
                have h0 := hinv.main_past h1 h2
                have hfin := hl ⟨job, .finished r, acq, rel⟩
                simp only [finder3.live] at hfin
                exfalso
                omega
        | go j =>
          simp only at h
          cases h
          simp only [finder3.pairedTail] at htok
          obtain ⟨hp, ha, hr⟩ := htok
          have hl' := hl ⟨job, .walking rest r, acq, rel⟩
          have ho' := ho ⟨job, .walking rest r, acq, rel⟩
          have hh' := hh ⟨job, .walking rest r, acq, rel⟩
          rw [finder3.owed_of_paired _ _ _ _ _ hp] at ho'
          simp only [finder3.live, finder3.owed, finder3.holding] at hl' ho' hh'
          refine ⟨?_, ?_, hinv.limits_le, ?_, hinv.main_past, hinv.closed_main⟩
          · simp only [finder3.outstanding, List.map_append, List.sum_append, List.map_cons,
              List.map_nil, List.sum_cons, List.sum_nil, finder3.live, finder3.owed]
            omega
          · simp only [finder3.inFlight, List.map_append, List.sum_append, List.map_cons,
              List.map_nil, List.sum_cons, List.sum_nil, finder3.holding]
            omega
          · intro t ht
            rcases List.mem_append.1 ht with ht | ht
            · refine forall_mem_set _ _ _ _ hinv.tasks_ok ?_ t ht
              simp only [finder3.Task.ok]
              exact ⟨finder3.pairedTail_of_paired _ hp, ha, hr⟩
            · simp only [List.mem_singleton] at ht
              subst ht
              simp [finder3.Task.ok]
    | hashing =>
      simp only [finder3.Task.ok] at htok
      cases job with
      | searchTree path lst =>
        simp only at h
        cases h
      | processFile path =>
        simp only at h
        by_cases hcl : s.closed = true
        · rw [if_pos hcl] at h
          cases h
          exact ⟨hinv.count_eq, hinv.limits_eq, hinv.limits_le, hinv.tasks_ok, hinv.main_past,
            hinv.closed_main⟩
        · rw [if_neg hcl] at h
          cases hhf : hashFile env.md5 env.readFile path with
          | error c =>
            rw [hhf] at h
            simp only at h
            cases h
            exact ⟨hinv.count_eq, hinv.limits_eq, hinv.limits_le, hinv.tasks_ok, hinv.main_past,
              hinv.closed_main⟩
          | ok p =>
            rw [hhf] at h
            simp only at h
            cases h
            have hl' := hl ⟨.processFile path, .unwinding (.ret none), acq, rel⟩
            have ho' := ho ⟨.processFile path, .unwinding (.ret none), acq, rel⟩
            have hh' := hh ⟨.processFile path, .unwinding (.ret none), acq, rel⟩
            simp only [finder3.live, finder3.owed, finder3.holding] at hl' ho' hh'
            refine ⟨?_, ?_, hinv.limits_le, ?_, hinv.main_past, hinv.closed_main⟩
            · simp only [finder3.outstanding]
              omega
            · simp only [finder3.inFlight]
              omega
            · apply forall_mem_set _ _ _ _ hinv.tasks_ok
              simp only [finder3.Task.ok]
              exact htok
    | unwinding r =>
      simp only [finder3.Task.ok] at htok
      simp only at h
      by_cases hz : s.limits = 0
      · rw [if_pos hz] at h
        cases h
      · rw [if_neg hz] at h
        cases h
        have hl' := hl ⟨job, .released r, acq, rel + 1⟩
        have ho' := ho ⟨job, .released r, acq, rel + 1⟩
        have hh' := hh ⟨job, .released r, acq, rel + 1⟩
        simp only [finder3.live, finder3.owed, finder3.holding] at hl' ho' hh'
        have hle := hinv.limits_le
        refine ⟨?_, ?_, ?_, ?_, hinv.main_past, hinv.closed_main⟩
        · simp only [finder3.outstanding]
          omega
        · simp only [finder3.inFlight]
          omega
        · simp only
          omega
        · apply forall_mem_set _ _ _ _ hinv.tasks_ok
          simp only [finder3.Task.ok]
          exact ⟨htok.1, by omega⟩
    | released r =>
      simp only [finder3.Task.ok] at htok
      simp only at h
      by_cases hz : s.count = 0
      · rw [if_pos hz] at h
        cases h
        exact ⟨hinv.count_eq, hinv.limits_eq, hinv.limits_le, hinv.tasks_ok, hinv.main_past,
          hinv.closed_main⟩
      · rw [if_neg hz] at h
        cases h
        have hl' := hl ⟨job, .finished r, acq, rel⟩
        have ho' := ho ⟨job, .finished r, acq, rel⟩
        have hh' := hh ⟨job, .finished r, acq, rel⟩
        simp only [finder3.live, finder3.owed, finder3.holding] at hl' ho' hh'
        refine ⟨?_, ?_, hinv.limits_le, ?_, ?_, hinv.closed_main⟩
        · simp only [finder3.outstanding]
          omega
        · simp only [finder3.inFlight]
          omega
        · apply forall_mem_set _ _ _ _ hinv.tasks_ok
          simp only [finder3.Task.ok]
          exact htok
        · intro h1 h2
          have h0 := hinv.main_past h1 h2
          exact absurd h0 hz
    | finished r =>
      simp only at h
      cases h

theorem finder3.stepMain_inv (env : finder3.Env) (s s' : finder3.State)
    (h : finder3.stepMain s = some s') (hinv : finder3.Inv env s) :
    finder3.Inv env s' := by
  unfold finder3.stepMain at h
  have hcm := hinv.closed_main
  have hmp := hinv.main_past
  cases hm : s.mainPc with
  | inSearchTree =>
    rw [hm] at h hcm hmp
    simp only at h
    have hopen : s.closed = true → False := fun hc => by
      rcases hcm hc with h1 | h1 <;> cases h1
    cases hget : s.tasks.get? 0 with
    | none =>
      rw [hget] at h
      cases h
    | some t =>
      rw [hget] at h
      simp only at h
      obtain ⟨job, pc, acq, rel⟩ := t
      cases pc with
      | finished r =>
        cases r with
        | crash c =>
          simp only at h
          cases h
        | ret o =>
          cases o with
          | none =>
            simp only at h
            cases h
            exact ⟨hinv.count_eq, hinv.limits_eq, hinv.limits_le, hinv.tasks_ok,
              fun _ h2 => absurd rfl h2, fun hc => (hopen hc).elim⟩
          | some e =>
            simp only at h
            cases h
            refine ⟨hinv.count_eq, hinv.limits_eq, hinv.limits_le, hinv.tasks_ok, ?_, ?_⟩
            · intro h1 _
              exact absurd rfl h1
            · intro hc
              exact (hopen hc).elim
      | start => simp only at h; cases h
      | walking todo r => simp only at h; cases h
      | hashing => simp only at h; cases h
      | unwinding r => simp only at h; cases h
      | released r => simp only at h; cases h
  | waiting =>
    rw [hm] at h hcm hmp
    simp only at h
    have hopen : s.closed = true → False := fun hc => by
      rcases hcm hc with h1 | h1 <;> cases h1
    by_cases hz : s.count = 0
    · rw [if_pos hz] at h
      cases h
      exact ⟨hinv.count_eq, hinv.limits_eq, hinv.limits_le, hinv.tasks_ok,
        fun _ _ => hz, fun hc => (hopen hc).elim⟩
    · rw [if_neg hz] at h
      cases h
  | closing =>
    rw [hm] at h hcm hmp
    simp only at h
    cases h
    exact ⟨hinv.count_eq, hinv.limits_eq, hinv.limits_le, hinv.tasks_ok,
      fun _ _ => hmp (by simp) (by simp), fun _ => Or.inl rfl⟩
  | receiving =>
    rw [hm] at h hcm hmp
    simp only at h
    cases h
    exact ⟨hinv.count_eq, hinv.limits_eq, hinv.limits_le, hinv.tasks_ok,
      fun _ _ => hmp (by simp) (by simp), fun _ => Or.inr rfl⟩
  | returned =>
    rw [hm] at h
    simp only at h
    cases h

theorem finder3.step_inv (env : finder3.Env) (s s' : finder3.State) (w : finder3.Who)
    (h : finder3.step env s w = some s') (hinv : finder3.Inv env s) :
    finder3.Inv env s' := by
  unfold finder3.step at h
  cases hd : s.dead with
  | some c =>
    rw [hd] at h
    cases h
  | none =>
    rw [hd] at h
    cases w with
    | task i => exact finder3.stepTask_inv env s s' i h hinv
    | main => exact finder3.stepMain_inv env s s' h hinv

theorem finder3.exec_inv (env : finder3.Env) (sched : List finder3.Who) :
    ∀ (s s' : finder3.State), finder3.exec env s sched = some s' →
      finder3.Inv env s → finder3.Inv env s' := by
  induction sched with
  | nil =>
    intro s s' h hinv
    simp only [finder3.exec, Option.some.injEq] at h
    exact h ▸ hinv
  | cons w ws ih =>
    intro s s' h hinv
    simp only [finder3.exec] at h
    cases hs : finder3.step env s w with
    | none =>
      rw [hs] at h
      cases h
    | some s1 =>
      rw [hs] at h
      exact ih s1 s' h (finder3.step_inv env s s1 w hs hinv)

theorem finder3.reachable_inv (env : finder3.Env) (dir : String) (lst : Except FsError FsNode)
    (sched : List finder3.Who) (s : finder3.State)
    (h : finder3.exec env (finder3.init dir lst) sched = some s) : finder3.Inv env s :=
  finder3.exec_inv env sched _ s h (finder3.init_inv env dir lst)

theorem sum_map_eq_zero {α : Type} (f : α → Nat) (l : List α) (h : (l.map f).sum = 0) :
    ∀ t ∈ l, f t = 0 := by
  induction l with
  | nil => simp
  | cons x xs ih =>
    simp only [List.map_cons, List.sum_cons] at h
    intro t ht
    rcases List.mem_cons.1 ht with e | e
    · subst e
      omega
    · exact ih (by omega) t e

theorem finder3.stepTask_finished (env : finder3.Env) (s : finder3.State)
    (hall : ∀ t ∈ s.tasks, t.isFinished = true) (i : Nat) : finder3.stepTask env s i = none := by
  unfold finder3.stepTask
  cases hget : s.tasks.get? i with
  | none => rfl
  | some t =>
    have hf := hall t (List.get?_mem hget)
    obtain ⟨job, pc, acq, rel⟩ := t
    cases pc <;> simp [finder3.Task.isFinished] at hf ⊢

/-- C8. In every state that a schedule of finder3 reaches from the initial state
(count 1, the root walker registered): the count of the wait group equals the
number of registered tasks that are not over (goroutines not finished, plus
children registered by `wg.Add(1)` whose `go` statement is still to come); so
while a task is unfinished or a walker is between the `wg.Add(1)` and the `go`
of a child the count is not zero; once `wg.Wait()` has returned the count is
zero; and once `pairs` is closed every task is over and no task can take a
step, in particular no send on `pairs`. -/
theorem finder3_count_equals_outstanding_tasks (env : finder3.Env) (dir : String)
    (lst : Except FsError FsNode) (sched : List finder3.Who) (s : finder3.State)
    (hreach : finder3.exec env (finder3.init dir lst) sched = some s) :
    (finder3.init dir lst).count = 1 ∧
    s.count = finder3.outstanding s ∧
    (∀ t ∈ s.tasks, t.isFinished = false ∨ finder3.owed t = 1 → 0 < s.count) ∧
    (s.mainPc = .closing ∨ s.mainPc = .receiving ∨ s.mainPc = .returned → s.count = 0) ∧
    (s.closed = true →
      (∀ t ∈ s.tasks, t.isFinished = true) ∧ ∀ i, finder3.stepTask env s i = none) := by
  have hinv := finder3.reachable_inv env dir lst sched s hreach
  have hzero : s.count = 0 → ∀ t ∈ s.tasks, t.isFinished = true ∧ finder3.owed t = 0 := by
    intro hz t ht
    have hc := hinv.count_eq
    unfold finder3.outstanding at hc
    have h1 := sum_map_eq_zero finder3.live s.tasks (by omega) t ht
    have h2 := sum_map_eq_zero finder3.owed s.tasks (by omega) t ht
    refine ⟨?_, h2⟩
    obtain ⟨job, pc, acq, rel⟩ := t
    cases pc <;> simp [finder3.live, finder3.Task.isFinished] at h1 ⊢
  have hpast : s.mainPc = .closing ∨ s.mainPc = .receiving ∨ s.mainPc = .returned →
      s.count = 0 := by
    intro hm
    apply hinv.main_past
    · rcases hm with h | h | h <;> rw [h] <;> simp
    · rcases hm with h | h | h <;> rw [h] <;> simp
  refine ⟨rfl, hinv.count_eq, ?_, hpast, ?_⟩
  · intro t ht hor
    by_contra hz
    have hz' : s.count = 0 := by omega
    obtain ⟨h1, h2⟩ := hzero hz' t ht
    rcases hor with h | h
    · rw [h1] at h
      cases h
    · omega
  · intro hcl
    have hz : s.count = 0 := by
      rcases hinv.closed_main hcl with h | h
      · exact hpast (Or.inr (Or.inl h))
      · exact hpast (Or.inr (Or.inr h))
    have hall : ∀ t ∈ s.tasks, t.isFinished = true := fun t ht => (hzero hz t ht).1
    exact ⟨hall, finder3.stepTask_finished env s hall⟩

/-- C9. In every state that a schedule of finder3 reaches, with `limits` of
capacity `env.workers`: the number of goroutines between `limits <- true` and
`<-limits` (directory walks and file hashes in progress) equals the number of
values buffered in `limits` and is at most the capacity; and every task has
received from `limits` at most as often as it has sent to it, at most once,
the difference being 1 exactly while it holds a slot. -/
theorem finder3_in_flight_bounded_by_capacity (env : finder3.Env) (dir : String)
    (lst : Except FsError FsNode) (sched : List finder3.Who) (s : finder3.State)
    (hreach : finder3.exec env (finder3.init dir lst) sched = some s) :
    finder3.inFlight s = s.limits ∧
    finder3.inFlight s ≤ env.workers ∧
    ∀ t ∈ s.tasks, t.releases ≤ t.acquires ∧ t.acquires ≤ 1 ∧
      t.acquires = t.releases + finder3.holding t := by
  have hinv := finder3.reachable_inv env dir lst sched s hreach
  refine ⟨hinv.limits_eq.symm, hinv.limits_eq ▸ hinv.limits_le, ?_⟩
  intro t ht
  have hok := hinv.tasks_ok t ht
  obtain ⟨job, pc, acq, rel⟩ := t
  cases pc <;> simp only [finder3.Task.ok, finder3.holding] at hok ⊢ <;> omega

/-- Witness of C8: the root walker has taken a slot and executed `wg.Add(1)` for
the walker of `A`, whose `go` statement is still to come; the count is 2. -/
theorem finder3_count_equals_outstanding_tasks_witness :
    ∃ s, finder3.exec finder3.scenarioEnv (finder3.init "r" (.ok finder3.scenarioDenied))
        [.task 0, .task 0] = some s ∧ s.count = 2 ∧ s.tasks.length = 1 ∧
      s.count = finder3.outstanding s ∧
      (∀ t ∈ s.tasks, t.isFinished = false ∨ finder3.owed t = 1 → 0 < s.count) :=
  ⟨_, rfl, rfl, rfl,
    (finder3_count_equals_outstanding_tasks finder3.scenarioEnv "r" (.ok finder3.scenarioDenied)
      [.task 0, .task 0] _ rfl).2.1,
    (finder3_count_equals_outstanding_tasks finder3.scenarioEnv "r" (.ok finder3.scenarioDenied)
      [.task 0, .task 0] _ rfl).2.2.1⟩

/-- Witness of C9: the root walker and the walker of `A` both hold a slot. -/
theorem finder3_in_flight_bounded_by_capacity_witness :
    ∃ s, finder3.exec finder3.scenarioEnv (finder3.init "r" (.ok finder3.scenarioDenied))
        [.task 0, .task 0, .task 0, .task 1] = some s ∧ s.limits = 2 ∧
      finder3.inFlight s = s.limits ∧ finder3.inFlight s ≤ 4 :=
  ⟨_, rfl, rfl,
    (finder3_in_flight_bounded_by_capacity finder3.scenarioEnv "r" (.ok finder3.scenarioDenied)
      [.task 0, .task 0, .task 0, .task 1] _ rfl).1,
    (finder3_in_flight_bounded_by_capacity finder3.scenarioEnv "r" (.ok finder3.scenarioDenied)
      [.task 0, .task 0, .task 0, .task 1] _ rfl).2.1⟩

/-! ## The visit closures -/

/-- C7. The visit closure of `searchTree(dir, ...)` of finder3, on an entry
delivered with its file info and a nil error: for a directory other than `dir`
it executes `wg.Add(1)` and `go searchTree(path, ...)`, once each, and returns
`SkipDir`; for a regular file of size > 0 it executes `wg.Add(1)` and
`go processFile(path, ...)`, once each, and returns nil; in every other case
(`dir` itself, an empty file, a special file) it executes nothing and returns
nil. -/
theorem finder3_visit_dispatch (dir path : String) (f : FsNode) (ops : List finder3.Op) :
    (f.isDir = true → path ≠ dir →
      finder3.visit dir path (some f) none ops =
        (ops ++ [.add 1, .go (.searchTree path (.ok f))], .ret (some .skipDir))) ∧
    (f.isRegular = true → 0 < f.size →
      finder3.visit dir path (some f) none ops =
        (ops ++ [.add 1, .go (.processFile path)], .ret none)) ∧
    (¬ (f.isDir = true ∧ path ≠ dir) → ¬ (f.isRegular = true ∧ 0 < f.size) →
      finder3.visit dir path (some f) none ops = (ops, .ret none)) := by
  refine ⟨?_, ?_, ?_⟩
  · intro hd hp
    simp [finder3.visit, fatalWalkError, hd, hp]
  · intro hr hs
    have hd : f.isDir = false := by
      cases f <;> simp [FsNode.isRegular, FsNode.isDir] at hr ⊢
    simp [finder3.visit, fatalWalkError, hd, hr, hs]
  · intro h1 h2
    have h1' : (f.isDir && path != dir) = false := by
      cases hd : f.isDir
      · simp
      · have : path = dir := by
          by_contra hne
          exact h1 ⟨hd, hne⟩
        simp [this]
    have h2' : (f.isRegular && decide (f.size > 0)) = false := by
      cases hr : f.isRegular
      · simp
      · have : ¬ 0 < f.size := fun hs => h2 ⟨hr, hs⟩
        simp [this]
    simp only [finder3.visit, fatalWalkError]
    rw [h1', h2']
    simp

/-- Witness of C7: in the walker of `d`, the subdirectory `d/sub`, the file `d/f`
of 5 bytes, the directory `d` itself and the empty file `d/e`. -/
theorem finder3_visit_dispatch_witness :
    finder3.visit "d" "d/sub" (some (.dir 4096 .nil)) none [] =
      ([.add 1, .go (.searchTree "d/sub" (.ok (.dir 4096 .nil)))], .ret (some .skipDir)) ∧
    finder3.visit "d" "d/f" (some (.file true 5)) none [] =
      ([.add 1, .go (.processFile "d/f")], .ret none) ∧
    finder3.visit "d" "d" (some (.dir 4096 .nil)) none [] = ([], .ret none) ∧
    finder3.visit "d" "d/e" (some (.file true 0)) none [] = ([], .ret none) :=
  ⟨(finder3_visit_dispatch "d" "d/sub" (.dir 4096 .nil) []).1 rfl (by decide),
   (finder3_visit_dispatch "d" "d/f" (.file true 5) []).2.1 rfl (by decide),
   (finder3_visit_dispatch "d" "d" (.dir 4096 .nil) []).2.2 (by decide) (by decide),
   (finder3_visit_dispatch "d" "d/e" (.file true 0) []).2.2 (by decide) (by decide)⟩

/-- C4 (what the code does). An entry reported with a not-exist error and no file
info makes the visit closure of each of the three programs panic, on the nil
`os.FileInfo` in `f.Mode()`: it does not return nil, and a walk that meets such
an entry does not go on to the next entry. -/
theorem visit_panics_on_vanished_entry (dir path : String) (md5 : Bytes → String)
    (readFile : String → Option Bytes) (ops : List finder3.Op) (hashes : result)
    (sent : List String) :
    finder3.visit dir path none (some (.fs .notExist)) ops = (ops, .crash .panic) ∧
    finder0.visit md5 readFile path none (some (.fs .notExist)) hashes
      = (hashes, .crash .panic) ∧
    finder1.visit path none (some (.fs .notExist)) sent = (sent, .crash .panic) ∧
    finder0.searchTree md5 readFile dir
        (.ok (.dir 4096 (.vanished "gone" .notExist (.entry "f" (.file true 5) .nil))))
      = ([], .crash .panic) ∧
    finder3.walkOps dir
        (.ok (.dir 4096 (.vanished "gone" .notExist (.entry "f" (.file true 5) .nil))))
      = ([], .crash .panic) := by
  refine ⟨?_, ?_, ?_, ?_, ?_⟩
  · simp [finder3.visit, fatalWalkError, GoError.isNotExist]
  · simp [finder0.visit, fatalWalkError, GoError.isNotExist]
  · simp [finder1.visit, fatalWalkError, GoError.isNotExist]
  · simp [finder0.searchTree, Walk, walk, walkNames, finder0.visit, fatalWalkError,
      GoError.isNotExist, FsNode.isRegular]
  · simp [finder3.walkOps, Walk, walk, walkNames, finder3.visit, fatalWalkError,
      GoError.isNotExist, FsNode.isRegular, FsNode.isDir]

/-- C3 (what the code does). On the tree `r/A/B` with `B` unreadable (permission
denied): the walker spawned for `r/A` returns the permission error, finder0
returns that error to `main`, but a run of finder3 goes on after the walker of
`r/A` is over, is not aborted, and `run` returns a result index, which misses
the duplicate files `r/A/c` and `r/A/d`.  When the root itself is unreadable
the same run is aborted by `log.Fatal`. -/
theorem finder3_drops_error_of_spawned_walker :
    (finder3.walkOps "r/A" (.ok finder3.scenarioDeniedA)).2 = .ret (some (.fs .permission)) ∧
    (finder0.searchTree finder3.scenarioEnv.md5 finder3.scenarioEnv.readFile "r"
        (.ok finder3.scenarioDenied)).2 = .ret (some (.fs .permission)) ∧
    (finder3.exec finder3.scenarioEnv (finder3.init "r" (.ok finder3.scenarioDenied))
        [.task 0, .task 0, .task 0, .task 0, .task 0, .task 0, .main,
         .task 1, .task 1, .task 1, .task 1, .main, .main, .main]).map
      (fun s => (s.dead, s.mainPc, s.returned, s.tasks.length))
      = some (none, .returned, some [], 2) ∧
    (finder3.exec finder3.scenarioEnv (finder3.init "r" (.ok (.unreadable 4096 .permission)))
        [.task 0, .task 0, .task 0, .task 0, .main]).map
      (fun s => (s.dead, s.mainPc, s.returned))
      = some (some Crash.fatal, .inSearchTree, none) := by
  exact ⟨by decide, by decide, rfl, rfl⟩

/-! ## finder3: where the jobs and the paths of the map come from -/

theorem fsNode_self_mem_entries (node : FsNode) (path : String) :
    (path, node) ∈ node.entries path := by
  cases node <;> simp [FsNode.entries]

mutual
theorem fsNode_entries_closed : ∀ (node : FsNode) (path : String) (e : String × FsNode),
    e ∈ node.entries path → ∀ x ∈ e.2.entries e.1, x ∈ node.entries path
  | .file rg sz, path, e, he => by
    simp only [FsNode.entries, List.mem_singleton] at he
    subst he
    intro x hx
    exact hx
  | .unreadable sz err, path, e, he => by
    simp only [FsNode.entries, List.mem_singleton] at he
    subst he
    intro x hx
    exact hx
  | .dir sz es, path, e, he => by
    rw [FsNode.entries, List.mem_cons] at he
    rcases he with he | he
    · subst he
      intro x hx
      exact hx
    · intro x hx
      rw [FsNode.entries]
      exact List.mem_cons_of_mem _ (fsList_entries_closed es path e he x hx)
theorem fsList_entries_closed : ∀ (es : FsList) (path : String) (e : String × FsNode),
    e ∈ es.entries path → ∀ x ∈ e.2.entries e.1, x ∈ es.entries path
  | .nil, path, e, he => by simp [FsList.entries] at he
  | .vanished name err rest, path, e, he => by
    rw [FsList.entries] at he
    intro x hx
    rw [FsList.entries]
    exact fsList_entries_closed rest path e he x hx
  | .entry name node rest, path, e, he => by
    rw [FsList.entries, List.mem_append] at he
    intro x hx
    rw [FsList.entries, List.mem_append]
    rcases he with he | he
    · exact Or.inl (fsNode_entries_closed node (Join path name) e he x hx)
    · exact Or.inr (fsList_entries_closed rest path e he x hx)
end

theorem finder3.rootEntries_closed (dir : String) (lst : Except FsError FsNode)
    (e : String × FsNode) (he : e ∈ finder3.rootEntries dir lst) :
    ∀ x ∈ e.2.entries e.1, x ∈ finder3.rootEntries dir lst := by
  cases lst with
  | error err => simp [finder3.rootEntries] at he
  | ok root => exact fsNode_entries_closed root dir e he

theorem finder3.Job.within_mono (E E' : List (String × FsNode)) (j : finder3.Job)
    (hsub : ∀ e ∈ E, e ∈ E') (h : j.within E) : j.within E' := by
  cases j with
  | searchTree path lst =>
    intro node hn
    exact hsub _ (h node hn)
  | processFile q =>
    obtain ⟨n, hn, hel⟩ := h
    exact ⟨n, hsub _ hn, hel⟩

theorem finder3.visit_within (dir path : String) (f : Option FsNode) (err : Option GoError)
    (ops ops' : List finder3.Op) (r : Res)
    (h : finder3.visit dir path f err ops = (ops', r)) :
    ∀ j, finder3.Op.go j ∈ ops' → finder3.Op.go j ∈ ops ∨
      ∃ n, f = some n ∧ j.within [(path, n)] := by
  unfold finder3.visit at h
  by_cases hf : fatalWalkError err = true
  · rw [if_pos hf] at h
    intro j hj
    exact Or.inl ((Prod.mk.inj h).1 ▸ hj)
  · rw [if_neg hf] at h
    cases f with
    | none =>
      intro j hj
      exact Or.inl ((Prod.mk.inj h).1 ▸ hj)
    | some n =>
      simp only at h
      by_cases hd : (n.isDir && path != dir) = true
      · rw [if_pos hd] at h
        intro j hj
        rw [← (Prod.mk.inj h).1] at hj
        simp only [List.mem_append, List.mem_cons, List.mem_singleton, List.mem_nil_iff,
          or_false, false_or, finder3.Op.go.injEq, reduceCtorEq] at hj
        rcases hj with hj | hj
        · exact Or.inl hj
        · subst hj
          refine Or.inr ⟨n, rfl, ?_⟩
          intro node hn
          cases hn
          simp
      · rw [if_neg hd] at h
        by_cases hel : (n.isRegular && decide (n.size > 0)) = true
        · rw [if_pos hel] at h
          intro j hj
          rw [← (Prod.mk.inj h).1] at hj
          simp only [List.mem_append, List.mem_cons, List.mem_singleton, List.mem_nil_iff,
            or_false, false_or, finder3.Op.go.injEq, reduceCtorEq] at hj
          rcases hj with hj | hj
          · exact Or.inl hj
          · subst hj
            exact Or.inr ⟨n, rfl, n, by simp, hel⟩
        · rw [if_neg hel] at h
          intro j hj
          exact Or.inl ((Prod.mk.inj h).1 ▸ hj)

mutual
theorem finder3.walk_within (dir : String) :
    ∀ (node : FsNode) (path : String) (ops ops' : List finder3.Op) (r : Res),
      walk (finder3.visit dir) path node ops = (ops', r) →
      ∀ j, finder3.Op.go j ∈ ops' → finder3.Op.go j ∈ ops ∨ j.within (node.entries path)
  | .file rg sz, path, ops, ops', r, h => by
    rw [walk] at h
    intro j hj
    rcases finder3.visit_within dir path _ _ ops ops' r h j hj with h1 | ⟨n, hn, hw⟩
    · exact Or.inl h1
    · cases hn
      exact Or.inr (finder3.Job.within_mono _ _ j (by simp [FsNode.entries]) hw)
  | .unreadable sz e, path, ops, ops', r, h => by
    rw [walk] at h
    intro j hj
    rcases finder3.visit_within dir path _ _ ops ops' r h j hj with h1 | ⟨n, hn, hw⟩
    · exact Or.inl h1
    · cases hn
      exact Or.inr (finder3.Job.within_mono _ _ j (by simp [FsNode.entries]) hw)
  | .dir sz es, path, ops, ops', r, h => by
    rw [walk] at h
    generalize hv : finder3.visit dir path (some (FsNode.dir sz es)) none ops = v at h
    obtain ⟨s1, r1⟩ := v
    have hvis := finder3.visit_within dir path _ _ ops s1 r1 hv
    have hfirst : ∀ j, finder3.Op.go j ∈ s1 →
        finder3.Op.go j ∈ ops ∨ j.within ((FsNode.dir sz es).entries path) := by
      intro j hj
      rcases hvis j hj with h1 | ⟨n, hn, hw⟩
      · exact Or.inl h1
      · cases hn
        exact Or.inr (finder3.Job.within_mono _ _ j (by simp [FsNode.entries]) hw)
    cases r1 with
    | crash c =>
      simp only at h
      exact (Prod.mk.inj h).1 ▸ hfirst
    | ret o =>
      cases o with
      | some e =>
        simp only at h
        exact (Prod.mk.inj h).1 ▸ hfirst
      | none =>
        simp only at h
        intro j hj
        rcases finder3.walkNames_within dir es path s1 ops' r h j hj with h1 | h1
        · exact hfirst j h1
        · refine Or.inr (finder3.Job.within_mono _ _ j ?_ h1)
          intro e he
          rw [FsNode.entries]
          exact List.mem_cons_of_mem _ he
theorem finder3.walkNames_within (dir : String) :
    ∀ (es : FsList) (path : String) (ops ops' : List finder3.Op) (r : Res),
      walkNames (finder3.visit dir) path es ops = (ops', r) →
      ∀ j, finder3.Op.go j ∈ ops' → finder3.Op.go j ∈ ops ∨ j.within (es.entries path)
  | .nil, path, ops, ops', r, h => by
    rw [walkNames] at h
    intro j hj
    exact Or.inl ((Prod.mk.inj h).1 ▸ hj)
  | .vanished name e rest, path, ops, ops', r, h => by
    rw [walkNames] at h
    generalize hv : finder3.visit dir (Join path name) none (some (GoError.fs e)) ops = v at h
    obtain ⟨s1, r1⟩ := v
    have hvis := finder3.visit_within dir _ _ _ ops s1 r1 hv
    have hfirst : ∀ j, finder3.Op.go j ∈ s1 → finder3.Op.go j ∈ ops := by
      intro j hj
      rcases hvis j hj with h1 | ⟨n, hn, _⟩
      · exact h1
      · cases hn
    have hrest : walkNames (finder3.visit dir) path rest s1 = (ops', r) →
        ∀ j, finder3.Op.go j ∈ ops' →
          finder3.Op.go j ∈ ops ∨ j.within ((FsList.vanished name e rest).entries path) := by
      intro h' j hj
      rcases finder3.walkNames_within dir rest path s1 ops' r h' j hj with h1 | h1
      · exact Or.inl (hfirst j h1)
      · rw [FsList.entries]
        exact Or.inr h1
    cases r1 with
    | crash c =>
      simp only at h
      intro j hj
      exact Or.inl (hfirst j ((Prod.mk.inj h).1 ▸ hj))
    | ret o =>
      cases o with
      | none =>
        simp only at h
        exact hrest h
      | some x =>
        cases x with
        | skipDir =>
          simp only at h
          exact hrest h
        | fs y =>
          simp only at h
          intro j hj
          exact Or.inl (hfirst j ((Prod.mk.inj h).1 ▸ hj))
  | .entry name node rest, path, ops, ops', r, h => by
    rw [walkNames] at h
    generalize hw : walk (finder3.visit dir) (Join path name) node ops = w at h
    obtain ⟨s1, r1⟩ := w
    have hwalk := finder3.walk_within dir node (Join path name) ops s1 r1 hw
    have hfirst : ∀ j, finder3.Op.go j ∈ s1 →
        finder3.Op.go j ∈ ops ∨ j.within ((FsList.entry name node rest).entries path) := by
      intro j hj
      rcases hwalk j hj with h1 | h1
      · exact Or.inl h1
      · refine Or.inr (finder3.Job.within_mono _ _ j ?_ h1)
        intro e he
        rw [FsList.entries]
        exact List.mem_append_left _ he
    have hrest : walkNames (finder3.visit dir) path rest s1 = (ops', r) →
        ∀ j, finder3.Op.go j ∈ ops' →
          finder3.Op.go j ∈ ops ∨ j.within ((FsList.entry name node rest).entries path) := by
      intro h' j hj
      rcases finder3.walkNames_within dir rest path s1 ops' r h' j hj with h1 | h1
      · exact hfirst j h1
      · refine Or.inr (finder3.Job.within_mono _ _ j ?_ h1)
        intro e he
        rw [FsList.entries]
        exact List.mem_append_right _ he
    cases r1 with
    | crash c =>
      simp only at h
      exact (Prod.mk.inj h).1 ▸ hfirst
    | ret o =>
      cases o with
      | none =>
        simp only at h
        exact hrest h
      | some x =>
        simp only at h
        by_cases hc : (!node.isDir || x != GoError.skipDir) = true
        · rw [if_pos hc] at h
          exact (Prod.mk.inj h).1 ▸ hfirst
        · rw [if_neg hc] at h
          exact hrest h
end

theorem finder3.walkOps_within (dir : String) (lst : Except FsError FsNode) :
    ∀ j, finder3.Op.go j ∈ (finder3.walkOps dir lst).1 →
      j.within (finder3.rootEntries dir lst) := by
  unfold finder3.walkOps Walk
  cases lst with
  | error e =>
    simp only
    generalize hv : finder3.visit dir dir none (some (GoError.fs e)) [] = v
    obtain ⟨s1, r1⟩ := v
    have hvis := finder3.visit_within dir _ _ _ _ s1 r1 hv
    have hnone : ∀ j, finder3.Op.go j ∉ s1 := by
      intro j hj
      rcases hvis j hj with h1 | ⟨n, hn, _⟩
      · simp at h1
      · cases hn
    intro j hj
    exfalso
    refine hnone j ?_
    cases r1 with
    | crash c => exact hj
    | ret o =>
      cases o with
      | none => exact hj
      | some x => cases x <;> exact hj
  | ok root =>
    simp only
    generalize hw : walk (finder3.visit dir) dir root [] = w
    obtain ⟨s1, r1⟩ := w
    have hwalk := finder3.walk_within dir root dir [] s1 r1 hw
    have hall : ∀ j, finder3.Op.go j ∈ s1 → j.within (root.entries dir) := by
      intro j hj
      rcases hwalk j hj with h1 | h1
      · simp at h1
      · exact h1
    intro j hj
    refine hall j ?_
    cases r1 with
    | crash c => exact hj
    | ret o =>
      cases o with
      | none => exact hj
      | some x => cases x <;> exact hj

theorem result.index_nil_or_mem (m : result) (k : String) :
    result.index m k = [] ∨ (k, result.index m k) ∈ m := by
  by_cases hk : k ∈ result.keys m
  · exact Or.inr (result.index_mem m k hk)
  · exact Or.inl (result.index_eq_nil m k hk)

theorem finder3.indexWithin_index (E : List (String × FsNode)) (m : result)
    (hm : finder3.indexWithin E m) (k q : String) (hq : q ∈ result.index m k) :
    ∃ n, (q, n) ∈ E ∧ eligible (q, n) = true := by
  rcases result.index_nil_or_mem m k with h | h
  · rw [h] at hq
    cases hq
  · exact hm _ h q hq

theorem finder3.indexWithin_record (E : List (String × FsNode)) (m : result) (p : pair)
    (hm : finder3.indexWithin E m) (hp : ∃ n, (p.path, n) ∈ E ∧ eligible (p.path, n) = true) :
    finder3.indexWithin E (record m p) := by
  intro e he q hq
  unfold record at he
  rcases result.mem_assign _ _ _ _ he with h | h
  · subst h
    simp only [List.mem_append, List.mem_singleton] at hq
    rcases hq with hq | hq
    · exact finder3.indexWithin_index E m hm _ q hq
    · exact hq ▸ hp
  · exact hm e h q hq

theorem finder3.stepTask_src (env : finder3.Env) (E : List (String × FsNode))
    (hE : ∀ e ∈ E, ∀ x ∈ e.2.entries e.1, x ∈ E)
    (s s' : finder3.State) (i : Nat)
    (h : finder3.stepTask env s i = some s') (hsrc : finder3.Src E s) :
    finder3.Src E s' := by
  unfold finder3.stepTask at h
  cases hget : s.tasks.get? i with
  | none =>
    rw [hget] at h
    cases h
  | some t =>
    rw [hget] at h
    simp only at h
    have htw := hsrc.tasks_within t (List.get?_mem hget)
    obtain ⟨job, pc, acq, rel⟩ := t
    obtain ⟨hjob, htodo⟩ := htw
    simp only at hjob htodo
    cases pc with
    | start =>
      simp only at h
      by_cases hlt : s.limits < env.workers
      · rw [if_pos hlt] at h
        cases h
        refine ⟨?_, hsrc.hashes_within, hsrc.returned_within⟩
        apply forall_mem_set _ _ _ _ hsrc.tasks_within
        refine ⟨hjob, ?_⟩
        cases job with
        | processFile q => simp [finder3.body]
        | searchTree path lst =>
          simp only [finder3.body]
          intro j hj
          refine finder3.Job.within_mono _ _ j ?_ (finder3.walkOps_within path lst j hj)
          intro e he
          cases lst with
          | error err => simp [finder3.rootEntries] at he
          | ok node => exact hE _ (hjob node rfl) e he
      · rw [if_neg hlt] at h
        cases h
    | walking todo r =>
      cases todo with
      | nil =>
        simp only at h
        cases h
        refine ⟨?_, hsrc.hashes_within, hsrc.returned_within⟩
        apply forall_mem_set _ _ _ _ hsrc.tasks_within
        exact ⟨hjob, trivial⟩
      | cons op rest =>
        cases op with
        | add delta =>
          simp only at h
          cases h
          refine ⟨?_, hsrc.hashes_within, hsrc.returned_within⟩
          apply forall_mem_set _ _ _ _ hsrc.tasks_within
          exact ⟨hjob, fun j hj => htodo j (List.mem_cons_of_mem _ hj)⟩
        | go j =>
          simp only at h
          cases h
          refine ⟨?_, hsrc.hashes_within, hsrc.returned_within⟩
          intro t ht
          rcases List.mem_append.1 ht with ht | ht
          · refine forall_mem_set _ _ _ _ hsrc.tasks_within ?_ t ht
            exact ⟨hjob, fun j' hj' => htodo j' (List.mem_cons_of_mem _ hj')⟩
          · simp only [List.mem_singleton] at ht
            subst ht
            exact ⟨htodo j (List.mem_cons_self _ _), trivial⟩
    | hashing =>
      cases job with
      | searchTree path lst =>
        simp only at h
        cases h
      | processFile path =>
        simp only at h
        by_cases hcl : s.closed = true
        · rw [if_pos hcl] at h
          cases h
          exact ⟨hsrc.tasks_within, hsrc.hashes_within, hsrc.returned_within⟩
        · rw [if_neg hcl] at h
          cases hhf : hashFile env.md5 env.readFile path with
          | error c =>
            rw [hhf] at h
            simp only at h
            cases h
            exact ⟨hsrc.tasks_within, hsrc.hashes_within, hsrc.returned_within⟩
          | ok p =>
            rw [hhf] at h
            simp only at h
            cases h
            have hpath : p.path = path := by
              unfold hashFile at hhf
              cases hrd : env.readFile path with
              | none =>
                rw [hrd] at hhf
                cases hhf
              | some c =>
                rw [hrd] at hhf
                cases hhf
                rfl
            refine ⟨?_, ?_, hsrc.returned_within⟩
            · apply forall_mem_set _ _ _ _ hsrc.tasks_within
              exact ⟨hjob, trivial⟩
            · exact finder3.indexWithin_record E _ p hsrc.hashes_within (hpath ▸ hjob)
    | unwinding r =>
      simp only at h
      by_cases hz : s.limits = 0
      · rw [if_pos hz] at h
        cases h
      · rw [if_neg hz] at h
        cases h
        refine ⟨?_, hsrc.hashes_within, hsrc.returned_within⟩
        apply forall_mem_set _ _ _ _ hsrc.tasks_within
        exact ⟨hjob, trivial⟩
    | released r =>
      simp only at h
      by_cases hz : s.count = 0
      · rw [if_pos hz] at h
        cases h
        exact ⟨hsrc.tasks_within, hsrc.hashes_within, hsrc.returned_within⟩
      · rw [if_neg hz] at h
        cases h
        refine ⟨?_, hsrc.hashes_within, hsrc.returned_within⟩
        apply forall_mem_set _ _ _ _ hsrc.tasks_within
        exact ⟨hjob, trivial⟩
    | finished r =>
      simp only at h
      cases h

theorem finder3.stepMain_src (E : List (String × FsNode)) (s s' : finder3.State)
    (h : finder3.stepMain s = some s') (hsrc : finder3.Src E s) : finder3.Src E s' := by
  unfold finder3.stepMain at h
  cases hm : s.mainPc with
  | inSearchTree =>
    rw [hm] at h
    simp only at h
    cases hget : s.tasks.get? 0 with
    | none =>
      rw [hget] at h
      cases h
    | some t =>
      rw [hget] at h
      simp only at h
      obtain ⟨job, pc, acq, rel⟩ := t
      cases pc with
      | finished r =>
        cases r with
        | crash c =>
          simp only at h
          cases h
        | ret o =>
          cases o with
          | none =>
            simp only at h
            cases h
            exact ⟨hsrc.tasks_within, hsrc.hashes_within, hsrc.returned_within⟩
          | some e =>
            simp only at h
            cases h
            exact ⟨hsrc.tasks_within, hsrc.hashes_within, hsrc.returned_within⟩
      | start => simp only at h; cases h
      | walking todo r => simp only at h; cases h
      | hashing => simp only at h; cases h
      | unwinding r => simp only at h; cases h
      | released r => simp only at h; cases h
  | waiting =>
    rw [hm] at h
    simp only at h
    by_cases hz : s.count = 0
    · rw [if_pos hz] at h
      cases h
      exact ⟨hsrc.tasks_within, hsrc.hashes_within, hsrc.returned_within⟩
    · rw [if_neg hz] at h
      cases h
  | closing =>
    rw [hm] at h
    simp only at h
    cases h
    exact ⟨hsrc.tasks_within, hsrc.hashes_within, hsrc.returned_within⟩
  | receiving =>
    rw [hm] at h
    simp only at h
    cases h
    refine ⟨hsrc.tasks_within, hsrc.hashes_within, ?_⟩
    intro idx hidx
    simp only [Option.some.injEq] at hidx
    exact hidx ▸ hsrc.hashes_within
  | returned =>
    rw [hm] at h
    simp only at h
    cases h

theorem finder3.exec_src (env : finder3.Env) (E : List (String × FsNode))
    (hE : ∀ e ∈ E, ∀ x ∈ e.2.entries e.1, x ∈ E) (sched : List finder3.Who) :
    ∀ (s s' : finder3.State), finder3.exec env s sched = some s' →
      finder3.Src E s → finder3.Src E s' := by
  induction sched with
  | nil =>
    intro s s' h hsrc
    simp only [finder3.exec, Option.some.injEq] at h
    exact h ▸ hsrc
  | cons w ws ih =>
    intro s s' h hsrc
    simp only [finder3.exec] at h
    cases hs : finder3.step env s w with
    | none =>
      rw [hs] at h
      cases h
    | some s1 =>
      rw [hs] at h
      refine ih s1 s' h ?_
      unfold finder3.step at hs
      cases hd : s.dead with
      | some c =>
        rw [hd] at hs
        cases hs
      | none =>
        rw [hd] at hs
        cases w with
        | task i => exact finder3.stepTask_src env E hE s s1 i hs hsrc
        | main => exact finder3.stepMain_src E s s1 hs hsrc

theorem finder3.reachable_src (env : finder3.Env) (dir : String) (lst : Except FsError FsNode)
    (sched : List finder3.Who) (s : finder3.State)
    (h : finder3.exec env (finder3.init dir lst) sched = some s) :
    finder3.Src (finder3.rootEntries dir lst) s := by
  refine finder3.exec_src env _ (finder3.rootEntries_closed dir lst) sched _ s h ?_
  refine ⟨?_, ?_, ?_⟩
  · intro t ht
    simp only [finder3.init, List.mem_singleton] at ht
    subst ht
    refine ⟨?_, trivial⟩
    intro node hn
    subst hn
    exact fsNode_self_mem_entries node dir
  · intro e he
    simp [finder3.init] at he
  · intro idx hidx
    simp [finder3.init] at hidx

/-! ## Empty files -/

theorem not_eligible_of_size_zero (p : String) (n : FsNode) (h : n.size = 0) :
    eligible (p, n) = false := by
  simp [eligible, h]

/-- C2. Let `p` be a path at which the tree holds only objects of size 0.  Then `p`
is in no path list of the map of finder0, whatever the walk comes to, and in no
reported group; in every state that a schedule of finder3 reaches, `p` is in no
path list of the collector's map, nor of the map that `run` returns, nor in a
reported group; and the visit closures hash (finder0) or hand to `processFile`
(finder3) only an entry that is regular and of size > 0. -/
theorem empty_file_never_in_index (md5 : Bytes → String) (readFile : String → Option Bytes)
    (dir : String) (root : FsNode) (p : String)
    (hp : ∀ n, (p, n) ∈ root.entries dir → n.size = 0) :
    (∀ hashes r, finder0.searchTree md5 readFile dir (.ok root) = (hashes, r) →
      (∀ h, p ∉ result.index hashes h) ∧ ∀ g ∈ report hashes, p ∉ g.2) ∧
    (∀ workers sched s,
      finder3.exec { workers := workers, md5 := md5, readFile := readFile }
        (finder3.init dir (.ok root)) sched = some s →
      (∀ h, p ∉ result.index s.hashes h) ∧
      ∀ idx, s.returned = some idx →
        (∀ h, p ∉ result.index idx h) ∧ ∀ g ∈ report idx, p ∉ g.2) ∧
    (∀ path f err hashes, (finder0.visit md5 readFile path f err hashes).1 ≠ hashes →
      ∃ n, f = some n ∧ n.isRegular = true ∧ 0 < n.size) ∧
    (∀ d path f err ops q,
      finder3.Op.go (.processFile q) ∈ (finder3.visit d path f err ops).1 →
      finder3.Op.go (.processFile q) ∈ ops ∨
        ∃ n, f = some n ∧ q = path ∧ n.isRegular = true ∧ 0 < n.size) := by
  have hbad : ¬ ∃ n, (p, n) ∈ root.entries dir ∧ eligible (p, n) = true := by
    rintro ⟨n, hn, hel⟩
    rw [not_eligible_of_size_zero p n (hp n hn)] at hel
    cases hel
  refine ⟨?_, ?_, ?_, ?_⟩
  · intro hashes r hrun
    obtain ⟨ps, hps, hsound, _⟩ := finder0.searchTree_spec md5 readFile dir _ hashes r hrun
    have hidx := collectHashes_index ps
    have hno : ∀ h, p ∉ result.index hashes h := by
      intro h hmem
      rw [hps, hidx, List.mem_map] at hmem
      obtain ⟨q, hq, hqp⟩ := hmem
      obtain ⟨root', hroot, hq'⟩ := hsound q (List.mem_filter.1 hq).1
      cases hroot
      obtain ⟨e, he, hel, c, _, hqe⟩ := (mem_hashStream _ _ _ _).1 hq'
      subst hqe
      simp only at hqp
      obtain ⟨e1, e2⟩ := e
      simp only at hqp
      subst hqp
      exact hbad ⟨e2, he, hel⟩
    refine ⟨hno, ?_⟩
    intro g hg hpg
    have hg' : g ∈ hashes := (List.mem_filter.1 hg).1
    rw [hps] at hg'
    rw [collectHashes_entry ps g hg', ← hps] at hpg
    exact hno _ hpg
  · intro workers sched s hreach
    have hsrc := finder3.reachable_src _ dir (.ok root) sched s hreach
    simp only [finder3.rootEntries] at hsrc
    refine ⟨?_, ?_⟩
    · intro h hmem
      exact hbad (finder3.indexWithin_index _ _ hsrc.hashes_within h p hmem)
    · intro idx hidx
      have hw := hsrc.returned_within idx hidx
      refine ⟨?_, ?_⟩
      · intro h hmem
        exact hbad (finder3.indexWithin_index _ _ hw h p hmem)
      · intro g hg hpg
        exact hbad (hw g (List.mem_filter.1 hg).1 p hpg)
  · intro path f err hashes hne
    by_cases herr : err = some .skipDir
    · subst herr
      simp [finder0.visit, fatalWalkError, GoError.isNotExist] at hne
    · generalize hv : finder0.visit md5 readFile path f err hashes = v at hne
      obtain ⟨s1, r1⟩ := v
      obtain ⟨_, h2, _⟩ := finder0.visit_spec md5 readFile path f err hashes s1 r1 herr hv
      rcases h2 with h2 | ⟨n, c, hn, hel, _, _⟩
      · exact absurd h2 hne
      · simp only [eligible, Bool.and_eq_true, decide_eq_true_eq] at hel
        exact ⟨n, hn, hel.1, hel.2⟩
  · intro d path f err ops q hq
    generalize hv : finder3.visit d path f err ops = v at hq
    obtain ⟨s1, r1⟩ := v
    rcases finder3.visit_within d path f err ops s1 r1 hv _ hq with h1 | ⟨n, hn, hw⟩
    · exact Or.inl h1
    · obtain ⟨n', hn', hel⟩ := hw
      simp only [List.mem_singleton, Prod.mk.injEq] at hn'
      obtain ⟨hq1, hq2⟩ := hn'
      subst hq2
      simp only [eligible, Bool.and_eq_true, decide_eq_true_eq] at hel
      exact Or.inr ⟨n', hn, hq1, hel.1, hel.2⟩

/-- Witness of C2, Scenario B: two empty files with the same content and one
file of 5 bytes; the map of finder0 holds the path of the non-empty file only,
and no group is reported. -/
theorem empty_file_never_in_index_witness :
    (finder0.searchTree scenarioDigest scenarioBRead "d" (.ok scenarioB)).1
      = [("5d41402abc4b2a76b9719d911017c592", ["d/f"])] ∧
    ((∀ h, "d/e1" ∉ result.index
        (finder0.searchTree scenarioDigest scenarioBRead "d" (.ok scenarioB)).1 h) ∧
     ∀ g ∈ report (finder0.searchTree scenarioDigest scenarioBRead "d" (.ok scenarioB)).1,
        "d/e1" ∉ g.2) :=
  ⟨by decide,
   (empty_file_never_in_index scenarioDigest scenarioBRead "d" scenarioB "d/e1"
      (by
        intro n hn
        simp only [scenarioB, FsNode.entries, FsList.entries, Join, List.mem_cons,
          List.mem_append, List.mem_singleton, Prod.mk.injEq, List.mem_nil_iff, or_false] at hn
        rcases hn with h | h | h | h
        · exact absurd h.1 (by decide)
        · rw [h.2]; rfl
        · exact absurd h.1 (by decide)
        · exact absurd h.1 (by decide))).1 _ _ rfl⟩

/-! ## finder3: every eligible file of a tree without errors gets hashed -/

theorem finder3.visit_cases (dir path : String) (n : FsNode) (ops : List finder3.Op) :
    finder3.visit dir path (some n) none ops =
      if (n.isDir && path != dir) = true then
        (ops ++ [.add 1, .go (.searchTree path (.ok n))], .ret (some .skipDir))
      else if eligible (path, n) = true then
        (ops ++ [.add 1, .go (.processFile path)], .ret none)
      else (ops, .ret none) := by
  simp only [finder3.visit, fatalWalkError, eligible]
  rfl

theorem finder3.covered_mono (e : String × FsNode) (ops ops' : List finder3.Op)
    (hsub : ∀ o ∈ ops, o ∈ ops') (h : finder3.covered e ops) : finder3.covered e ops' := by
  rcases h with h | ⟨q, m, hm, hc, he⟩
  · exact Or.inl (hsub _ h)
  · exact Or.inr ⟨q, m, hsub _ hm, hc, he⟩

mutual
theorem finder3.walk_cover (dir : String) :
    ∀ (node : FsNode) (path : String) (ops ops' : List finder3.Op) (r : Res),
      walk (finder3.visit dir) path node ops = (ops', r) → node.clean = true →
      (r = .ret none ∨ (r = .ret (some .skipDir) ∧ node.isDir = true)) ∧
      (∀ o ∈ ops, o ∈ ops') ∧
      ∀ e ∈ node.entries path, eligible e = true → finder3.covered e ops'
  | .file rg sz, path, ops, ops', r, h, _ => by
    rw [walk, finder3.visit_cases] at h
    have hd : ¬ ((FsNode.file rg sz).isDir && path != dir) = true := by simp [FsNode.isDir]
    rw [if_neg hd] at h
    by_cases hel : eligible (path, FsNode.file rg sz) = true
    · rw [if_pos hel] at h
      obtain ⟨h1, h2⟩ := Prod.mk.inj h
      subst h1 h2
      refine ⟨Or.inl rfl, fun o ho => List.mem_append_left _ ho, ?_⟩
      intro e he _
      simp only [FsNode.entries, List.mem_singleton] at he
      subst he
      exact Or.inl (by simp)
    · rw [if_neg hel] at h
      obtain ⟨h1, h2⟩ := Prod.mk.inj h
      subst h1 h2
      refine ⟨Or.inl rfl, fun o ho => ho, ?_⟩
      intro e he hel'
      simp only [FsNode.entries, List.mem_singleton] at he
      subst he
      exact absurd hel' hel
  | .unreadable sz err, path, ops, ops', r, h, hc => by
    simp [FsNode.clean] at hc
  | .dir sz es, path, ops, ops', r, h, hc => by
    rw [walk, finder3.visit_cases] at h
    rw [FsNode.clean] at hc
    by_cases hd : ((FsNode.dir sz es).isDir && path != dir) = true
    · rw [if_pos hd] at h
      simp only at h
      obtain ⟨h1, h2⟩ := Prod.mk.inj h
      subst h1 h2
      refine ⟨Or.inr ⟨rfl, rfl⟩, fun o ho => List.mem_append_left _ ho, ?_⟩
      intro e he _
      exact Or.inr ⟨path, FsNode.dir sz es, by simp, by rw [FsNode.clean]; exact hc, he⟩
    · rw [if_neg hd] at h
      have hnel : ¬ eligible (path, FsNode.dir sz es) = true := by
        simp [eligible, FsNode.isRegular]
      rw [if_neg hnel] at h
      simp only at h
      obtain ⟨k1, k2, k3⟩ := finder3.walkNames_cover dir es path ops ops' r h hc
      refine ⟨Or.inl k1, k2, ?_⟩
      intro e he hel
      rw [FsNode.entries, List.mem_cons] at he
      rcases he with he | he
      · subst he
        exact absurd hel hnel
      · exact k3 e he hel
theorem finder3.walkNames_cover (dir : String) :
    ∀ (es : FsList) (path : String) (ops ops' : List finder3.Op) (r : Res),
      walkNames (finder3.visit dir) path es ops = (ops', r) → es.clean = true →
      r = .ret none ∧ (∀ o ∈ ops, o ∈ ops') ∧
      ∀ e ∈ es.entries path, eligible e = true → finder3.covered e ops'
  | .nil, path, ops, ops', r, h, _ => by
    rw [walkNames] at h
    obtain ⟨h1, h2⟩ := Prod.mk.inj h
    subst h1 h2
    exact ⟨rfl, fun o ho => ho, by simp [FsList.entries]⟩
  | .vanished name err rest, path, ops, ops', r, h, hc => by
    simp [FsList.clean] at hc
  | .entry name node rest, path, ops, ops', r, h, hc => by
    rw [FsList.clean, Bool.and_eq_true] at hc
    rw [walkNames] at h
    generalize hw : walk (finder3.visit dir) (Join path name) node ops = w at h
    obtain ⟨s1, r1⟩ := w
    obtain ⟨w1, w2, w3⟩ := finder3.walk_cover dir node (Join path name) ops s1 r1 hw hc.1
    have hrest : walkNames (finder3.visit dir) path rest s1 = (ops', r) := by
      rcases w1 with w1 | ⟨w1, wd⟩
      · subst w1
        simpa using h
      · subst w1
        simp only at h
        have hcond : ¬ (!node.isDir || GoError.skipDir != GoError.skipDir) = true := by
          simp [wd]
        rw [if_neg hcond] at h
        exact h
    obtain ⟨k1, k2, k3⟩ := finder3.walkNames_cover dir rest path s1 ops' r hrest hc.2
    refine ⟨k1, fun o ho => k2 o (w2 o ho), ?_⟩
    intro e he hel
    rw [FsList.entries, List.mem_append] at he
    rcases he with he | he
    · exact finder3.covered_mono e s1 ops' k2 (w3 e he hel)
    · exact k3 e he hel
end

theorem finder3.walkOps_cover (dir : String) (root : FsNode) (hc : root.clean = true) :
    ∀ e ∈ root.entries dir, eligible e = true →
      finder3.covered e (finder3.walkOps dir (.ok root)).1 := by
  unfold finder3.walkOps Walk
  simp only
  generalize hw : walk (finder3.visit dir) dir root [] = w
  obtain ⟨s1, r1⟩ := w
  obtain ⟨w1, _, w3⟩ := finder3.walk_cover dir root dir [] s1 r1 hw hc
  intro e he hel
  have := w3 e he hel
  rcases w1 with w1 | ⟨w1, _⟩
  · subst w1
    exact this
  · subst w1
    exact this

theorem get?_set_other {α : Type} :
    ∀ (l : List α) (i j : Nat) (t' u : α), j ≠ i → l.get? j = some u →
      (l.set i t').get? j = some u
  | [], _, _, _, _, _, h => by simp at h
  | x :: xs, 0, 0, _, _, hne, _ => absurd rfl hne
  | x :: xs, 0, j + 1, t', u, _, h => by
    simp only [List.get?_cons_succ] at h
    simp only [List.set_cons_zero, List.get?_cons_succ]
    exact h
  | x :: xs, i + 1, 0, t', u, _, h => by
    simp only [List.get?_cons_zero] at h
    simp only [List.set_cons_succ, List.get?_cons_zero]
    exact h
  | x :: xs, i + 1, j + 1, t', u, hne, h => by
    simp only [List.get?_cons_succ] at h
    simp only [List.set_cons_succ, List.get?_cons_succ]
    exact get?_set_other xs i j t' u (fun e => hne (by rw [e])) h

theorem get?_set_same {α : Type} :
    ∀ (l : List α) (i : Nat) (t t' : α), l.get? i = some t → (l.set i t').get? i = some t'
  | [], _, _, _, h => by simp at h
  | x :: xs, 0, _, t', _ => by
    simp only [List.set_cons_zero, List.get?_cons_zero]
  | x :: xs, i + 1, t, t', h => by
    simp only [List.get?_cons_succ] at h
    simp only [List.set_cons_succ, List.get?_cons_succ]
    exact get?_set_same xs i t t' h

theorem get?_append_some {α : Type} :
    ∀ (l l' : List α) (j : Nat) (u : α), l.get? j = some u → (l ++ l').get? j = some u
  | [], _, _, _, h => by simp at h
  | x :: xs, l', 0, u, h => by
    simp only [List.get?_cons_zero] at h
    simp only [List.cons_append, List.get?_cons_zero]
    exact h
  | x :: xs, l', j + 1, u, h => by
    simp only [List.get?_cons_succ] at h
    simp only [List.cons_append, List.get?_cons_succ]
    exact get?_append_some xs l' j u h

theorem get?_append_last {α : Type} :
    ∀ (l : List α) (c : α), (l ++ [c]).get? l.length = some c
  | [], c => by simp only [List.nil_append, List.length_nil, List.get?_cons_zero]
  | x :: xs, c => by
    simp only [List.cons_append, List.length_cons, List.get?_cons_succ]
    exact get?_append_last xs c

theorem record_index_mono (m : result) (p : pair) (h q : String)
    (hq : q ∈ result.index m h) : q ∈ result.index (record m p) h := by
  rw [record_index]
  by_cases hp : p.hash = h
  · rw [if_pos hp]
    exact List.mem_append_left _ hq
  · rw [if_neg hp]
    exact hq

theorem finder3.accounted_step (env : finder3.Env) (s s' : finder3.State) (i : Nat)
    (t : finder3.Task) (e : String × FsNode)
    (hget : s.tasks.get? i = some t)
    (hhash : ∀ h q, q ∈ result.index s.hashes h → q ∈ result.index s'.hashes h)
    (hframe : ∀ j u, j ≠ i → s.tasks.get? j = some u → s'.tasks.get? j = some u)
    (hown : t.owes e → finder3.Accounted env s' e)
    (hacc : finder3.Accounted env s e) : finder3.Accounted env s' e := by
  rcases hacc with ⟨c, hc, hin⟩ | ⟨j, u, hj, hu⟩
  · exact Or.inl ⟨c, hc, hhash _ _ hin⟩
  · by_cases hji : j = i
    · subst hji
      rw [hget] at hj
      cases hj
      exact hown hu
    · exact Or.inr ⟨j, u, hframe j u hji hj, hu⟩

theorem finder3.all_finished_of_count_zero (env : finder3.Env) (s : finder3.State)
    (hinv : finder3.Inv env s) (hz : s.count = 0) :
    ∀ t ∈ s.tasks, t.isFinished = true := by
  intro t ht
  have hc := hinv.count_eq
  unfold finder3.outstanding at hc
  have h1 := sum_map_eq_zero finder3.live s.tasks (by omega) t ht
  obtain ⟨job, pc, acq, rel⟩ := t
  cases pc <;> simp [finder3.live, finder3.Task.isFinished] at h1 ⊢

theorem finder3.no_task_step_after_return (env : finder3.Env) (s : finder3.State)
    (hinv : finder3.Inv env s) (hm : s.mainPc = .returned) (i : Nat) :
    finder3.stepTask env s i = none := by
  apply finder3.stepTask_finished
  apply finder3.all_finished_of_count_zero env s hinv
  apply hinv.main_past <;> rw [hm] <;> simp

theorem finder3.stepTask_cov (env : finder3.Env) (E : List (String × FsNode))
    (s s' : finder3.State) (i : Nat)
    (h : finder3.stepTask env s i = some s') (hinv : finder3.Inv env s)
    (hcov : finder3.Cov env E s) : finder3.Cov env E s' := by
  have hret : s.returned = none := by
    cases hr : s.returned with
    | none => rfl
    | some idx =>
      have hm := (hcov.returned_eq idx hr).2
      rw [finder3.no_task_step_after_return env s hinv hm i] at h
      cases h
  unfold finder3.stepTask at h
  cases hget : s.tasks.get? i with
  | none =>
    rw [hget] at h
    cases h
  | some t =>
    rw [hget] at h
    simp only at h
    obtain ⟨job, pc, acq, rel⟩ := t
    cases pc with
    | start =>
      simp only at h
      by_cases hlt : s.limits < env.workers
      · rw [if_pos hlt] at h
        cases h
        refine ⟨?_, ?_⟩
        · intro e he hel
          refine finder3.accounted_step env s _ i _ e hget (fun _ _ hq => hq)
            (fun j u hji hj => get?_set_other _ _ _ _ _ hji hj) ?_ (hcov.accounted e he hel)
          intro hown
          refine Or.inr ⟨i, _, get?_set_same _ _ _ _ hget, ?_⟩
          simp only [finder3.Task.owes] at hown ⊢
          rcases hown with hown | ⟨q, m, hj, hc, hin⟩
          · subst hown
            simp only [finder3.body]
          · subst hj
            simp only [finder3.body]
            exact finder3.walkOps_cover q m hc e hin hel
        · intro idx hidx
          simp only at hidx
          rw [hret] at hidx
          cases hidx
      · rw [if_neg hlt] at h
        cases h
    | walking todo r =>
      cases todo with
      | nil =>
        simp only at h
        cases h
        refine ⟨?_, ?_⟩
        · intro e he hel
          refine finder3.accounted_step env s _ i _ e hget (fun _ _ hq => hq)
            (fun j u hji hj => get?_set_other _ _ _ _ _ hji hj) ?_ (hcov.accounted e he hel)
          intro hown
          simp only [finder3.Task.owes, finder3.covered, List.not_mem_nil, false_and,
            exists_false, or_self] at hown
        · intro idx hidx
          simp only at hidx
          rw [hret] at hidx
          cases hidx
      | cons op rest =>
        cases op with
        | add delta =>
          simp only at h
          cases h
          refine ⟨?_, ?_⟩
          · intro e he hel
            refine finder3.accounted_step env s _ i _ e hget (fun _ _ hq => hq)
              (fun j u hji hj => get?_set_other _ _ _ _ _ hji hj) ?_ (hcov.accounted e he hel)
            intro hown
            refine Or.inr ⟨i, _, get?_set_same _ _ _ _ hget, ?_⟩
            simp only [finder3.Task.owes, finder3.covered, List.mem_cons, reduceCtorEq,
              false_or] at hown ⊢
            exact hown
          · intro idx hidx
            simp only at hidx
            rw [hret] at hidx
            cases hidx
        | go j =>
          simp only at h
          cases h
          refine ⟨?_, ?_⟩
          · intro e he hel
            refine finder3.accounted_step env s _ i _ e hget (fun _ _ hq => hq)
              (fun k u hki hk => get?_append_some _ _ _ _ (get?_set_other _ _ _ _ _ hki hk)) ?_
              (hcov.accounted e he hel)
            intro hown
            simp only [finder3.Task.owes, finder3.covered, List.mem_cons,
              finder3.Op.go.injEq] at hown
            rcases hown with (hown | hown) | ⟨q, m, hown | hown, hc, hin⟩
            · refine Or.inr ⟨_, _, get?_append_last _ _, ?_⟩
              simp only [finder3.Task.owes]
              exact Or.inl hown.symm
            · refine Or.inr ⟨i, _, get?_append_some _ _ _ _ (get?_set_same _ _ _ _ hget), ?_⟩
              simp only [finder3.Task.owes]
              exact Or.inl hown
            · refine Or.inr ⟨_, _, get?_append_last _ _, ?_⟩
              simp only [finder3.Task.owes]
              exact Or.inr ⟨q, m, hown.symm, hc, hin⟩
            · refine Or.inr ⟨i, _, get?_append_some _ _ _ _ (get?_set_same _ _ _ _ hget), ?_⟩
              simp only [finder3.Task.owes]
              exact Or.inr ⟨q, m, hown, hc, hin⟩
          · intro idx hidx
            simp only at hidx
            rw [hret] at hidx
            cases hidx
    | hashing =>
      cases job with
      | searchTree path lst =>
        simp only at h
        cases h
      | processFile path =>
        simp only at h
        by_cases hcl : s.closed = true
        · rw [if_pos hcl] at h
          cases h
          exact ⟨hcov.accounted, hcov.returned_eq⟩
        · rw [if_neg hcl] at h
          cases hhf : hashFile env.md5 env.readFile path with
          | error c =>
            rw [hhf] at h
            simp only at h
            cases h
            exact ⟨hcov.accounted, hcov.returned_eq⟩
          | ok p =>
            rw [hhf] at h
            simp only at h
            cases h
            refine ⟨?_, ?_⟩
            · intro e he hel
              refine finder3.accounted_step env s _ i _ e hget
                (fun h q hq => record_index_mono s.hashes p h q hq)
                (fun j u hji hj => get?_set_other _ _ _ _ _ hji hj) ?_ (hcov.accounted e he hel)
              intro hown
              simp only [finder3.Task.owes, finder3.Job.processFile.injEq] at hown
              subst hown
              unfold hashFile at hhf
              cases hrd : env.readFile e.1 with
              | none =>
                rw [hrd] at hhf
                cases hhf
              | some c =>
                rw [hrd] at hhf
                cases hhf
                refine Or.inl ⟨c, hrd, ?_⟩
                simp only
                rw [record_index]
                simp
            · intro idx hidx
              simp only at hidx
              rw [hret] at hidx
              cases hidx
    | unwinding r =>
      simp only at h
      by_cases hz : s.limits = 0
      · rw [if_pos hz] at h
        cases h
      · rw [if_neg hz] at h
        cases h
        refine ⟨?_, ?_⟩
        · intro e he hel
          refine finder3.accounted_step env s _ i _ e hget (fun _ _ hq => hq)
            (fun j u hji hj => get?_set_other _ _ _ _ _ hji hj) ?_ (hcov.accounted e he hel)
          intro hown
          simp only [finder3.Task.owes] at hown
        · intro idx hidx
          simp only at hidx
          rw [hret] at hidx
          cases hidx
    | released r =>
      simp only at h
      by_cases hz : s.count = 0
      · rw [if_pos hz] at h
        cases h
        exact ⟨hcov.accounted, hcov.returned_eq⟩
      · rw [if_neg hz] at h
        cases h
        refine ⟨?_, ?_⟩
        · intro e he hel
          refine finder3.accounted_step env s _ i _ e hget (fun _ _ hq => hq)
            (fun j u hji hj => get?_set_other _ _ _ _ _ hji hj) ?_ (hcov.accounted e he hel)
          intro hown
          simp only [finder3.Task.owes] at hown
        · intro idx hidx
          simp only at hidx
          rw [hret] at hidx
          cases hidx
    | finished r =>
      simp only at h
      cases h

theorem finder3.stepMain_cov (env : finder3.Env) (E : List (String × FsNode))
    (s s' : finder3.State) (h : finder3.stepMain s = some s')
    (hcov : finder3.Cov env E s) : finder3.Cov env E s' := by
  unfold finder3.stepMain at h
  have hre := hcov.returned_eq
  cases hm : s.mainPc with
  | inSearchTree =>
    rw [hm] at h hre
    simp only at h
    have hnone : ∀ idx, s.returned = some idx → False := fun idx hidx => by
      have := (hre idx hidx).2
      cases this
    cases hget : s.tasks.get? 0 with
    | none =>
      rw [hget] at h
      cases h
    | some t =>
      rw [hget] at h
      simp only at h
      obtain ⟨job, pc, acq, rel⟩ := t
      cases pc with
      | finished r =>
        cases r with
        | crash c =>
          simp only at h
          cases h
        | ret o =>
          cases o with
          | none =>
            simp only at h
            cases h
            exact ⟨hcov.accounted, fun idx hidx => (hnone idx hidx).elim⟩
          | some e =>
            simp only at h
            cases h
            exact ⟨hcov.accounted, fun idx hidx => (hnone idx hidx).elim⟩
      | start => simp only at h; cases h
      | walking todo r => simp only at h; cases h
      | hashing => simp only at h; cases h
      | unwinding r => simp only at h; cases h
      | released r => simp only at h; cases h
  | waiting =>
    rw [hm] at h hre
    simp only at h
    have hnone : ∀ idx, s.returned = some idx → False := fun idx hidx => by
      have := (hre idx hidx).2
      cases this
    by_cases hz : s.count = 0
    · rw [if_pos hz] at h
      cases h
      exact ⟨hcov.accounted, fun idx hidx => (hnone idx hidx).elim⟩
    · rw [if_neg hz] at h
      cases h
  | closing =>
    rw [hm] at h hre
    simp only at h
    have hnone : ∀ idx, s.returned = some idx → False := fun idx hidx => by
      have := (hre idx hidx).2
      cases this
    cases h
    exact ⟨hcov.accounted, fun idx hidx => (hnone idx hidx).elim⟩
  | receiving =>
    rw [hm] at h
    simp only at h
    cases h
    refine ⟨hcov.accounted, ?_⟩
    intro idx hidx
    simp only [Option.some.injEq] at hidx
    exact ⟨hidx.symm, rfl⟩
  | returned =>
    rw [hm] at h
    simp only at h
    cases h

theorem finder3.exec_cov (env : finder3.Env) (E : List (String × FsNode))
    (sched : List finder3.Who) :
    ∀ (s s' : finder3.State), finder3.exec env s sched = some s' →
      finder3.Inv env s → finder3.Cov env E s → finder3.Cov env E s' := by
  induction sched with
  | nil =>
    intro s s' h _ hcov
    simp only [finder3.exec, Option.some.injEq] at h
    exact h ▸ hcov
  | cons w ws ih =>
    intro s s' h hinv hcov
    simp only [finder3.exec] at h
    cases hs : finder3.step env s w with
    | none =>
      rw [hs] at h
      cases h
    | some s1 =>
      rw [hs] at h
      refine ih s1 s' h (finder3.step_inv env s s1 w hs hinv) ?_
      unfold finder3.step at hs
      cases hd : s.dead with
      | some c =>
        rw [hd] at hs
        cases hs
      | none =>
        rw [hd] at hs
        cases w with
        | task i => exact finder3.stepTask_cov env E s s1 i hs hinv hcov
        | main => exact finder3.stepMain_cov env E s s1 hs hcov

theorem finder3.reachable_cov (env : finder3.Env) (dir : String) (root : FsNode)
    (hclean : root.clean = true) (sched : List finder3.Who) (s : finder3.State)
    (h : finder3.exec env (finder3.init dir (.ok root)) sched = some s) :
    finder3.Cov env (root.entries dir) s := by
  refine finder3.exec_cov env _ sched _ s h (finder3.init_inv env dir _) ?_
  refine ⟨?_, ?_⟩
  · intro e he _
    refine Or.inr ⟨0, _, rfl, ?_⟩
    simp only [finder3.Task.owes]
    exact Or.inr ⟨dir, root, rfl, hclean, he⟩
  · intro idx hidx
    simp [finder3.init] at hidx

/-- In a run of finder3 on a tree without errors, the map that `run` returns
holds the path of every eligible object under the fingerprint of its content. -/
theorem finder3.returned_index_complete (env : finder3.Env) (dir : String) (root : FsNode)
    (hclean : root.clean = true) (sched : List finder3.Who) (s : finder3.State)
    (idx : result)
    (h : finder3.exec env (finder3.init dir (.ok root)) sched = some s)
    (hidx : s.returned = some idx) :
    ∀ e ∈ root.entries dir, eligible e = true →
      ∃ c, env.readFile e.1 = some c ∧ e.1 ∈ result.index idx (env.md5 c) := by
  have hinv := finder3.reachable_inv env dir _ sched s h
  have hcov := finder3.reachable_cov env dir root hclean sched s h
  obtain ⟨hi, hm⟩ := hcov.returned_eq idx hidx
  have hz : s.count = 0 := by
    apply hinv.main_past <;> rw [hm] <;> simp
  have hfin := finder3.all_finished_of_count_zero env s hinv hz
  intro e he hel
  rcases hcov.accounted e he hel with ⟨c, hc, hin⟩ | ⟨i, t, hi', ht⟩
  · exact ⟨c, hc, hi ▸ hin⟩
  · exfalso
    have hf := hfin t (List.get?_mem hi')
    obtain ⟨job, pc, acq, rel⟩ := t
    cases pc <;> simp [finder3.Task.isFinished, finder3.Task.owes] at hf ht

/-! ## Identical files -/

/-- For every tree, every file reader and every fingerprint function, let `a`
and `b` be two objects of the tree at different paths that are regular, of
size > 0 and of identical content.  When `searchTree` of finder0 returns the
map with a `nil` error, the map is what `collectHashes` builds from the pairs
of the eligible objects, the paths of `a` and `b` are in the path list of one
key, which is the only key whose list holds either path, and that entry is
among the groups that `main` reports.  When `run` of finder3 returns a map on
a tree that no walker fails on, the paths of `a` and `b` are in the path list
of one key of that map and that entry is among the reported groups. -/
theorem identical_files_grouped (md5 : Bytes → String)
    (readFile : String → Option Bytes) (dir : String) (root : FsNode)
    (a b : String) (na nb : FsNode)
    (ha : (a, na) ∈ root.entries dir) (hb : (b, nb) ∈ root.entries dir)
    (hra : na.isRegular = true) (hsa : 0 < na.size)
    (hrb : nb.isRegular = true) (hsb : 0 < nb.size)
    (hab : a ≠ b) (hcontent : readFile a = readFile b) :
    (∀ hashes, finder0.searchTree md5 readFile dir (.ok root) = (hashes, .ret none) →
      hashes = collectHashes (hashStream md5 readFile (root.entries dir)) ∧
      ∃ h, h ∈ result.keys hashes ∧
        a ∈ result.index hashes h ∧ b ∈ result.index hashes h ∧
        (∀ k, a ∈ result.index hashes k ∨ b ∈ result.index hashes k → k = h) ∧
        (h, result.index hashes h) ∈ report hashes) ∧
    (root.clean = true → ∀ workers sched s idx,
      finder3.exec { workers := workers, md5 := md5, readFile := readFile }
        (finder3.init dir (.ok root)) sched = some s →
      s.returned = some idx →
      ∃ h, h ∈ result.keys idx ∧
        a ∈ result.index idx h ∧ b ∈ result.index idx h ∧
        (h, result.index idx h) ∈ report idx) := by
  have hela : eligible (a, na) = true := by simp [eligible, hra, hsa]
  have helb : eligible (b, nb) = true := by simp [eligible, hrb, hsb]
  have hreport : ∀ (m : result) (h : String), a ∈ result.index m h → b ∈ result.index m h →
      h ∈ result.keys m ∧ (h, result.index m h) ∈ report m := by
    intro m h hina hinb
    have hkey : h ∈ result.keys m := by
      by_contra hk
      rw [result.index_eq_nil m h hk] at hina
      cases hina
    refine ⟨hkey, ?_⟩
    unfold report
    rw [List.mem_filter]
    refine ⟨result.index_mem m _ hkey, ?_⟩
    simp only [decide_eq_true_eq]
    exact List.one_lt_length_of_two_mem _ a b hina hinb hab
  constructor
  · intro hashes hrun
    obtain ⟨ps, hps, _, hc⟩ := finder0.searchTree_spec md5 readFile dir _ hashes _ hrun
    obtain ⟨root', hroot, hstream, hread⟩ := hc rfl
    cases hroot
    subst hstream
    refine ⟨hps, ?_⟩
    have hca := hread _ ha hela
    obtain ⟨c, hc⟩ := Option.isSome_iff_exists.1 hca
    simp only at hc
    have hcb : readFile b = some c := hcontent ▸ hc
    have hidx := collectHashes_index (hashStream md5 readFile (root.entries dir))
    have hpa : ({ hash := md5 c, path := a } : pair) ∈
        hashStream md5 readFile (root.entries dir) :=
      (mem_hashStream _ _ _ _).2 ⟨(a, na), ha, hela, c, hc, rfl⟩
    have hpb : ({ hash := md5 c, path := b } : pair) ∈
        hashStream md5 readFile (root.entries dir) :=
      (mem_hashStream _ _ _ _).2 ⟨(b, nb), hb, helb, c, hcb, rfl⟩
    have hina : a ∈ result.index hashes (md5 c) := by
      rw [hps, hidx, List.mem_map]
      exact ⟨_, List.mem_filter.2 ⟨hpa, by simp⟩, rfl⟩
    have hinb : b ∈ result.index hashes (md5 c) := by
      rw [hps, hidx, List.mem_map]
      exact ⟨_, List.mem_filter.2 ⟨hpb, by simp⟩, rfl⟩
    obtain ⟨hkey, hrep⟩ := hreport hashes (md5 c) hina hinb
    refine ⟨md5 c, hkey, hina, hinb, ?_, hrep⟩
    intro k hk
    have key : ∀ x, readFile x = some c → x ∈ result.index hashes k → k = md5 c := by
      intro x hx hxk
      rw [hps, hidx, List.mem_map] at hxk
      obtain ⟨p, hp, hpx⟩ := hxk
      obtain ⟨hp1, hp2⟩ := List.mem_filter.1 hp
      obtain ⟨e, _, _, c', hc', hpe⟩ := (mem_hashStream _ _ _ _).1 hp1
      subst hpe
      simp only at hpx
      simp only [decide_eq_true_eq] at hp2
      rw [hpx, hx] at hc'
      cases hc'
      exact hp2.symm
    rcases hk with hk | hk
    · exact key a hc hk
    · exact key b hcb hk
  · intro hclean workers sched s idx hreach hidx
    have hcomplete := finder3.returned_index_complete
      { workers := workers, md5 := md5, readFile := readFile } dir root hclean sched s idx
      hreach hidx
    obtain ⟨c, hc, hina⟩ := hcomplete _ ha hela
    obtain ⟨c', hc', hinb⟩ := hcomplete _ hb helb
    simp only at hc hc' hina hinb
    rw [← hcontent, hc] at hc'
    cases hc'
    obtain ⟨hkey, hrep⟩ := hreport idx (md5 c) hina hinb
    exact ⟨md5 c, hkey, hina, hinb, hrep⟩

/-- Scenario A: files `a` = "hello", `b` = "hello", `c` = "world"
in one directory give exactly one reported group, holding the paths of `a` and
`b`, and `c` is not reported: in finder0, and in a run of finder3 in which the
hashers send in the order `c`, `b`, `a`. -/
theorem identical_files_grouped_scenarioA :
    report (finder0.searchTree scenarioDigest scenarioARead "d" (.ok scenarioA)).1
      = [("5d41402abc4b2a76b9719d911017c592", ["d/a", "d/b"])] ∧
    (∃ h, h ∈ result.keys [("5d41402abc4b2a76b9719d911017c592", ["d/a", "d/b"]),
                           ("7d793037a0760186574b0282f2f435e7", ["d/c"])] ∧
      "d/a" ∈ result.index [("5d41402abc4b2a76b9719d911017c592", ["d/a", "d/b"]),
                            ("7d793037a0760186574b0282f2f435e7", ["d/c"])] h ∧
      "d/b" ∈ result.index [("5d41402abc4b2a76b9719d911017c592", ["d/a", "d/b"]),
                            ("7d793037a0760186574b0282f2f435e7", ["d/c"])] h ∧
      (∀ k, "d/a" ∈ result.index [("5d41402abc4b2a76b9719d911017c592", ["d/a", "d/b"]),
                                  ("7d793037a0760186574b0282f2f435e7", ["d/c"])] k ∨
            "d/b" ∈ result.index [("5d41402abc4b2a76b9719d911017c592", ["d/a", "d/b"]),
                                  ("7d793037a0760186574b0282f2f435e7", ["d/c"])] k → k = h) ∧
      (h, result.index [("5d41402abc4b2a76b9719d911017c592", ["d/a", "d/b"]),
                        ("7d793037a0760186574b0282f2f435e7", ["d/c"])] h) ∈
        report [("5d41402abc4b2a76b9719d911017c592", ["d/a", "d/b"]),
                ("7d793037a0760186574b0282f2f435e7", ["d/c"])]) ∧
    (∃ s, finder3.exec { workers := 4, md5 := scenarioDigest, readFile := scenarioARead }
        (finder3.init "d" (.ok scenarioA))
        [.task 0, .task 0, .task 0, .task 0, .task 0, .task 0, .task 0, .task 0, .task 0,
         .task 0, .main, .task 3, .task 1, .task 2, .task 3, .task 2, .task 1, .task 1,
         .task 2, .task 3, .task 1, .task 2, .task 3, .main, .main, .main] = some s ∧
      s.returned = some [("7d793037a0760186574b0282f2f435e7", ["d/c"]),
                         ("5d41402abc4b2a76b9719d911017c592", ["d/b", "d/a"])] ∧
      report [("7d793037a0760186574b0282f2f435e7", ["d/c"]),
              ("5d41402abc4b2a76b9719d911017c592", ["d/b", "d/a"])]
        = [("5d41402abc4b2a76b9719d911017c592", ["d/b", "d/a"])] ∧
      ∃ h, h ∈ result.keys [("7d793037a0760186574b0282f2f435e7", ["d/c"]),
                            ("5d41402abc4b2a76b9719d911017c592", ["d/b", "d/a"])] ∧
        "d/a" ∈ result.index [("7d793037a0760186574b0282f2f435e7", ["d/c"]),
                              ("5d41402abc4b2a76b9719d911017c592", ["d/b", "d/a"])] h ∧
        "d/b" ∈ result.index [("7d793037a0760186574b0282f2f435e7", ["d/c"]),
                              ("5d41402abc4b2a76b9719d911017c592", ["d/b", "d/a"])] h ∧
        (h, result.index [("7d793037a0760186574b0282f2f435e7", ["d/c"]),
                          ("5d41402abc4b2a76b9719d911017c592", ["d/b", "d/a"])] h) ∈
          report [("7d793037a0760186574b0282f2f435e7", ["d/c"]),
                  ("5d41402abc4b2a76b9719d911017c592", ["d/b", "d/a"])]) :=
  ⟨by decide,
   ((identical_files_grouped scenarioDigest scenarioARead "d" scenarioA
      "d/a" "d/b" (.file true 5) (.file true 5)
      (by simp [scenarioA, FsNode.entries, FsList.entries, Join])
      (by simp [scenarioA, FsNode.entries, FsList.entries, Join])
      rfl (by decide) rfl (by decide) (by decide) (by decide)).1
      [("5d41402abc4b2a76b9719d911017c592", ["d/a", "d/b"]),
       ("7d793037a0760186574b0282f2f435e7", ["d/c"])] (by decide)).2,
   ⟨_, rfl, rfl, by decide,
     (identical_files_grouped scenarioDigest scenarioARead "d" scenarioA
      "d/a" "d/b" (.file true 5) (.file true 5)
      (by simp [scenarioA, FsNode.entries, FsList.entries, Join])
      (by simp [scenarioA, FsNode.entries, FsList.entries, Join])
      rfl (by decide) rfl (by decide) (by decide) (by decide)).2 rfl 4
      [.task 0, .task 0, .task 0, .task 0, .task 0, .task 0, .task 0, .task 0, .task 0,
       .task 0, .main, .task 3, .task 1, .task 2, .task 3, .task 2, .task 1, .task 1,
       .task 2, .task 3, .task 1, .task 2, .task 3, .main, .main, .main] _ _ rfl rfl⟩⟩

/-- C1 (what the code does). On the tree `r/A` with `B` unreadable (permission
denied) and the files `r/A/c` and `r/A/d`, two objects of the tree that are
regular, of size 5 and of identical content: a run of finder3 that is not
aborted ends with `run` returning a result index, and that index is empty, so
no key holds the path of `c` or of `d` and no group is reported.  The walker
of `r/A` stops at the permission error, which the `go` statement discards, and
never visits `c` and `d`.  finder0 returns the error for the same tree. -/
theorem finder3_run_misses_identical_files :
    (("r/A/c", FsNode.file true 5) ∈ finder3.scenarioDenied.entries "r" ∧
     ("r/A/d", FsNode.file true 5) ∈ finder3.scenarioDenied.entries "r") ∧
    ((FsNode.file true 5).isRegular = true ∧ 0 < (FsNode.file true 5).size) ∧
    finder3.scenarioEnv.readFile "r/A/c" = finder3.scenarioEnv.readFile "r/A/d" ∧
    (∃ s, finder3.exec finder3.scenarioEnv (finder3.init "r" (.ok finder3.scenarioDenied))
        [.task 0, .task 0, .task 0, .task 0, .task 0, .task 0, .main,
         .task 1, .task 1, .task 1, .task 1, .main, .main, .main] = some s ∧
      s.dead = none ∧ s.mainPc = .returned ∧ s.returned = some [] ∧
      ∀ idx, s.returned = some idx →
        (∀ h, "r/A/c" ∉ result.index idx h ∧ "r/A/d" ∉ result.index idx h) ∧
        report idx = []) ∧
    (finder3.walkOps "r/A" (.ok finder3.scenarioDeniedA))
      = ([], .ret (some (.fs .permission))) ∧
    (finder0.searchTree finder3.scenarioEnv.md5 finder3.scenarioEnv.readFile "r"
        (.ok finder3.scenarioDenied)).2 = .ret (some (.fs .permission)) := by
  refine ⟨⟨?_, ?_⟩, ⟨rfl, by decide⟩, rfl, ⟨_, rfl, rfl, rfl, rfl, ?_⟩, ?_, by decide⟩
  · simp [finder3.scenarioDenied, finder3.scenarioDeniedA, FsNode.entries, FsList.entries, Join]
  · simp [finder3.scenarioDenied, finder3.scenarioDeniedA, FsNode.entries, FsList.entries, Join]
  · intro idx hidx
    have hnil : idx = [] := (Option.some.inj hidx).symm
    subst hnil
    exact ⟨fun h => ⟨by simp [result.index], by simp [result.index]⟩, rfl⟩
  · rfl
